import Mathlib

/-!
Shallow embedding of the Markdown-to-Confluence-storage renderer
(markdown_to_storage and its helpers in scripts/confluence_cli.py),
together with proofs about its output.

Strings are modelled as lists of characters (String.data).  Python string
and regex whitespace is modelled over the ASCII range.  The regular
expressions used by the source are simple enough (negated single-character
classes with greedy repetition, fixed literals, one-character lookarounds)
that their Python matching semantics are deterministic; each one is
embedded as a first-order scanning function, and every re.sub call is
embedded as a left-to-right scan that replaces non-overlapping matches
and otherwise copies one character, exactly as Python performs it.
-/

set_option maxHeartbeats 1000000

namespace MdStorage

/-- ASCII whitespace, as stripped by Python str.strip / str.rstrip and matched
by the regex whitespace class. -/
def isWs (c : Char) : Bool :=
  c = ' ' || c = '\t' || c = '\n' || c = '\r' || c = '\x0b' || c = '\x0c'

/-- Python str.lstrip (ASCII model). -/
def lstripWs (l : List Char) : List Char := l.dropWhile isWs

/-- Python str.rstrip (ASCII model). -/
def rstripWs (l : List Char) : List Char := (l.reverse.dropWhile isWs).reverse

/-- Python str.strip (ASCII model). -/
def stripWs (l : List Char) : List Char := rstripWs (lstripWs l)

/-- Python str.rstrip applied with the single character newline. -/
def rstripNl (l : List Char) : List Char := (l.reverse.dropWhile (· = '\n')).reverse

/-- Python str.strip applied with the single character pipe: removes all leading
and trailing pipe characters. -/
def stripPipes (l : List Char) : List Char :=
  ((l.dropWhile (· = '|')).reverse.dropWhile (· = '|')).reverse

/-- One fused pass modelling markdown.replace of CRLF by LF followed by
.replace of CR by LF. -/
def normalizeNl : List Char → List Char
  | [] => []
  | '\r' :: '\n' :: t => '\n' :: normalizeNl t
  | '\r' :: t => '\n' :: normalizeNl t
  | c :: t => c :: normalizeNl t

/-- Python str.split on a separator character: preserves empty fields and
returns one (empty) field for the empty string. -/
def splitOnChar (sep : Char) : List Char → List (List Char)
  | [] => [[]]
  | c :: t =>
    if c = sep then [] :: splitOnChar sep t
    else
      match splitOnChar sep t with
      | [] => [[c]]
      | l :: ls => (c :: l) :: ls

/-- The line list produced by newline splitting, as in the source. -/
def splitLines (l : List Char) : List (List Char) := splitOnChar '\n' (normalizeNl l)

/-- Python separator.join for the newline separator. -/
def joinNl : List (List Char) → List Char
  | [] => []
  | [p] => p
  | p :: ps => p ++ '\n' :: joinNl ps

/-- Number of (possibly overlapping) occurrences of a pattern in a list. -/
def countOcc (pat : List Char) : List Char → Nat
  | [] => 0
  | c :: rest => (if pat.isPrefixOf (c :: rest) then 1 else 0) + countOcc pat rest

/-! ## escape_html -/

def escAmp (c : Char) : List Char := if c = '&' then "&amp;".data else [c]

def escLt (c : Char) : List Char := if c = '<' then "&lt;".data else [c]

def escGt (c : Char) : List Char := if c = '>' then "&gt;".data else [c]

/-- Model of escape_html: sequential whole-string replacement of the ampersand,
then of the less-than sign, then of the greater-than sign. -/
def escapeHtml (l : List Char) : List Char :=
  ((l.flatMap escAmp).flatMap escLt).flatMap escGt

/-- String-level escape_html, as in the source. -/
def escape_html (s : String) : String := ⟨escapeHtml s.data⟩

/-! ## The inline-span regex substitutions

Each substitution scans left to right over the string produced by the
previous one.  A matcher receives the character preceding the current
position in the string being scanned (for the one-character negative
lookbehinds) and the current suffix; on success it returns the replacement
text, the last character consumed (the new lookbehind character) and the
remaining suffix. -/

/-- Splits off the (nonempty) maximal run of characters different from d,
requiring a d right after it: the embedding of a bracketed group of one or
more characters from a negated single-character class followed by the literal
d, which is how such greedy groups deterministically match. -/
def splitAtFirst (d : Char) (l : List Char) : Option (List Char × List Char) :=
  match l.takeWhile (· ≠ d), l.dropWhile (· ≠ d) with
  | [], _ => none
  | _, [] => none
  | g, _ :: rest => some (g, rest)

/-- The replacement template of the link substitution. -/
def linkRepl (g1 g2 : List Char) : List Char :=
  "<a href=\"".data ++ escapeHtml g2 ++ "\">".data ++ g1 ++ "</a>".data

/-- Matcher for the link pattern: open bracket, one or more non-bracket
characters, close bracket, open paren, one or more non-paren characters,
close paren. -/
def matchLink (_ : Option Char) (l : List Char) : Option (List Char × Char × List Char) :=
  match l with
  | a :: t =>
    if a = '[' then
      match splitAtFirst ']' t with
      | some (g1, u) =>
        match u with
        | b :: v =>
          if b = '(' then
            match splitAtFirst ')' v with
            | some (g2, w) => some (linkRepl g1 g2, ')', w)
            | none => none
          else none
        | [] => none
      | none => none
    else none
  | [] => none

/-- Matcher for the inline-code pattern: backtick, one or more non-backtick
characters, backtick. -/
def matchCode (_ : Option Char) (l : List Char) : Option (List Char × Char × List Char) :=
  match l with
  | a :: t =>
    if a = '`' then
      match splitAtFirst '`' t with
      | some (g, w) => some ("<code>".data ++ g ++ "</code>".data, '`', w)
      | none => none
    else none
  | [] => none

/-- Matcher for the double-star strong pattern. -/
def matchStrongStar (_ : Option Char) (l : List Char) : Option (List Char × Char × List Char) :=
  match l with
  | a :: b :: t =>
    if a = '*' ∧ b = '*' then
      match splitAtFirst '*' t with
      | some (g, w) =>
        match w with
        | c :: w2 => if c = '*' then some ("<strong>".data ++ g ++ "</strong>".data, '*', w2)
            else none
        | [] => none
      | none => none
    else none
  | _ => none

/-- Matcher for the double-underscore strong pattern. -/
def matchStrongUnd (_ : Option Char) (l : List Char) : Option (List Char × Char × List Char) :=
  match l with
  | a :: b :: t =>
    if a = '_' ∧ b = '_' then
      match splitAtFirst '_' t with
      | some (g, w) =>
        match w with
        | c :: w2 => if c = '_' then some ("<strong>".data ++ g ++ "</strong>".data, '_', w2)
            else none
        | [] => none
      | none => none
    else none
  | _ => none

/-- Matcher for the single-star em pattern, with negative lookbehind and
lookahead for a star. -/
def matchEmStar (p : Option Char) (l : List Char) : Option (List Char × Char × List Char) :=
  match l with
  | a :: t =>
    if a = '*' then
      if p = some '*' then none
      else
        match splitAtFirst '*' t with
        | some (g, w) =>
          if w.head? = some '*' then none
          else some ("<em>".data ++ g ++ "</em>".data, '*', w)
        | none => none
    else none
  | [] => none

/-- Matcher for the single-underscore em pattern, with negative lookbehind
for an underscore and negative lookahead for an underscore followed by a
space (the lookahead as literally written in the source). -/
def matchEmUnd (p : Option Char) (l : List Char) : Option (List Char × Char × List Char) :=
  match l with
  | a :: t =>
    if a = '_' then
      if p = some '_' then none
      else
        match splitAtFirst '_' t with
        | some (g, w) =>
          if w.head? = some '_' ∧ w.tail.head? = some ' ' then none
          else some ("<em>".data ++ g ++ "</em>".data, '_', w)
        | none => none
    else none
  | [] => none

/-- Left-to-right scan of re.sub: at each position try the matcher; on a match
emit the replacement and resume after the match, otherwise copy one character.
The fuel argument is instantiated with the length of the scanned string, which
bounds the number of scanning steps since every step consumes at least one
character. -/
def scanSub (m : Option Char → List Char → Option (List Char × Char × List Char)) :
    Nat → Option Char → List Char → List Char
  | 0, _, s => s
  | _ + 1, _, [] => []
  | f + 1, p, a :: s =>
    match m p (a :: s) with
    | some (r, c, t) => r ++ scanSub m f (some c) t
    | none => a :: scanSub m f (some a) s

/-- One full re.sub pass over a string. -/
def subPass (m : Option Char → List Char → Option (List Char × Char × List Char))
    (s : List Char) : List Char :=
  scanSub m s.length none s

/-- Model of render_inline: escape first, then the five span substitutions in
source order (link, inline code, strong by stars, strong by underscores, em by
stars, em by underscores). -/
def renderInline (raw : List Char) : List Char :=
  subPass matchEmUnd (subPass matchEmStar (subPass matchStrongUnd (subPass matchStrongStar
    (subPass matchCode (subPass matchLink (escapeHtml raw))))))

/-- String-level render_inline, as in the source. -/
def render_inline (s : String) : String := ⟨renderInline s.data⟩

example : escapeHtml "a<b>&c".data = "a&lt;b&gt;&amp;c".data := by decide

example : renderInline "**bold**".data = "<strong>bold</strong>".data := by decide

example : renderInline "a *x* b".data = "a <em>x</em> b".data := by decide

example : renderInline "[t](u)".data = "<a href=\"u\">t</a>".data := by decide

example : renderInline "`c` and __s__".data = "<code>c</code> and <strong>s</strong>".data := by
  decide

example : renderInline "*a**".data = "*a**".data := by decide

example : renderInline "__a_b__".data = "__a<em>b</em>_".data := by decide

/-! ## Block-level scanning state and helpers -/

structure MDState where
  in_ul : Bool
  in_ol : Bool
  in_para : Bool
  in_quote : Bool
  in_code : Bool
deriving DecidableEq, Repr

def initState : MDState := ⟨false, false, false, false, false⟩

/-- The pieces appended by close_para. -/
def closeParaP (st : MDState) : List (List Char) :=
  if st.in_para then ["</p>".data] else []

/-- The pieces appended by close_lists. -/
def closeListsP (st : MDState) : List (List Char) :=
  (if st.in_ul then ["</ul>".data] else []) ++ (if st.in_ol then ["</ol>".data] else [])

/-- The pieces appended by close_quote. -/
def closeQuoteP (st : MDState) : List (List Char) :=
  if st.in_quote then ["</blockquote>".data] else []

/-- The pieces appended by close_para, close_lists, close_quote in sequence. -/
def closeAllP (st : MDState) : List (List Char) :=
  closeParaP st ++ closeListsP st ++ closeQuoteP st

/-- The state after close_para, close_lists and close_quote. -/
def clearedState (st : MDState) : MDState :=
  { st with in_para := false, in_ul := false, in_ol := false, in_quote := false }

/-! ## Line classification -/

/-- Core of the separator-row pattern: optional colon, three or more dashes,
optional colon; returns the rest on success. -/
def sepCore (s : List Char) : Option (List Char) :=
  let s1 := if s.head? = some ':' then s.tail else s
  if 3 ≤ (s1.takeWhile (· = '-')).length then
    let s2 := s1.dropWhile (· = '-')
    some (if s2.head? = some ':' then s2.tail else s2)
  else none

/-- One repetition of the separator group: pipe, spaces, core, spaces. -/
def sepGroupStep (s : List Char) : Option (List Char) :=
  match s with
  | '|' :: u =>
    match sepCore (lstripWs u) with
    | some v => some (lstripWs v)
    | none => none
  | _ => none

/-- Consume as many separator groups as possible (fuel-bounded; each group
consumes at least one character, so fuel equal to the length suffices). -/
def sepGroupsMany : Nat → List Char → List Char
  | 0, s => s
  | f + 1, s =>
    match sepGroupStep s with
    | some t => sepGroupsMany f t
    | none => s

/-- Model of is_separator_row: optional pipe, then at least two pipe-separated
runs of three-or-more dashes optionally flanked by colons, optional closing
pipe, over the stripped line. -/
def isSepRowL (s : List Char) : Bool :=
  let s0 := stripWs s
  let s1 := if s0.head? = some '|' then s0.tail else s0
  match sepCore (lstripWs s1) with
  | none => false
  | some s3 =>
    match sepGroupStep (lstripWs s3) with
    | none => false
    | some s5 =>
      let s6 := sepGroupsMany s5.length s5
      let s7 := if s6.head? = some '|' then s6.tail else s6
      (lstripWs s7).isEmpty

/-- Model of parse_cells: strip, strip all leading and trailing pipes, split
on pipes, strip each field. -/
def parseCellsL (s : List Char) : List (List Char) :=
  (splitOnChar '|' (stripPipes (stripWs s))).map stripWs

def isFenceStart (line : List Char) : Bool := "```".data.isPrefixOf line

def isBlankLine (line : List Char) : Bool := (stripWs line).isEmpty

/-- Model of the horizontal-rule pattern: optional spaces, a run of three or
more stars, dashes or underscores, optional spaces. -/
def isHrLine (line : List Char) : Bool :=
  let s := lstripWs line
  match s.head? with
  | some c =>
    if c = '*' || c = '-' || c = '_' then
      3 ≤ (s.takeWhile (· = c)).length && (lstripWs (s.dropWhile (· = c))).isEmpty
    else false
  | none => false

/-- Model of the heading pattern: one to six hashes, at least one whitespace
character, then the rest after the maximal whitespace run. -/
def headMatch (line : List Char) : Option (Nat × List Char) :=
  let hs := line.takeWhile (· = '#')
  let rest := line.dropWhile (· = '#')
  if 1 ≤ hs.length ∧ hs.length ≤ 6 then
    match rest.head? with
    | some c => if isWs c then some (hs.length, lstripWs rest) else none
    | none => none
  else none

/-- Embedding of a greedy match of one-or-more whitespace characters followed
by a nonempty group matching any characters, including the one-step backtrack
Python performs when everything after the first whitespace is whitespace. -/
def wsThenRest : List Char → Option (List Char)
  | c :: rest =>
    if isWs c then
      match lstripWs rest with
      | [] => (rest.getLast?).map (fun d => [d])
      | t => some t
    else none
  | [] => none

/-- Model of the unordered-list-item pattern: dash or star, whitespace, text. -/
def ulMatch (line : List Char) : Option (List Char) :=
  match line with
  | c :: rest => if c = '-' || c = '*' then wsThenRest rest else none
  | [] => none

/-- Model of the ordered-list-item pattern: digits, a dot, whitespace, text. -/
def olMatch (line : List Char) : Option (List Char) :=
  if (line.takeWhile (·.isDigit)).isEmpty then none
  else
    match line.dropWhile (·.isDigit) with
    | '.' :: rest => wsThenRest rest
    | _ => none

/-- The condition of the table-body-row gathering loop. -/
def isRowLine (l : List Char) : Bool := l.contains '|' && !((lstripWs l).head? = some '#')

/-- The guard of the table branch: the line contains a pipe and the next line
matches the separator-row pattern. -/
def tableCond (line : List Char) (rest : List (List Char)) : Bool :=
  line.contains '|' && (match rest with | nxt :: _ => isSepRowL nxt | [] => false)

/-- The table-header piece. -/
def tableHeadPiece (cells : List (List Char)) : List Char :=
  "<thead><tr>".data
    ++ (cells.map (fun h => "<th>".data ++ renderInline h ++ "</th>".data)).flatten
    ++ "</tr></thead>".data

/-- One table-body-row piece (cells of the consumed row, each rendered). -/
def tableRowPiece (r : List Char) : List Char :=
  "<tr>".data
    ++ ((parseCellsL r).map (fun c => "<td>".data ++ renderInline c ++ "</td>".data)).flatten
    ++ "</tr>".data

/-- The heading piece for a given level. -/
def headingPiece (n : Nat) (text : List Char) : List Char :=
  "<h".data ++ (Nat.repr n).data ++ ">".data ++ renderInline text
    ++ "</h".data ++ (Nat.repr n).data ++ ">".data

/-- All pieces of the table branch after the close calls. -/
def tablePieces (header : List Char) (rows : List (List Char)) : List (List Char) :=
  ["<table>".data, tableHeadPiece (parseCellsL header), "<tbody>".data]
    ++ rows.map tableRowPiece ++ ["</tbody>".data, "</table>".data]

/-- State change of the first half of the blockquote branch. -/
def quoteSt1 (st : MDState) : MDState :=
  if ¬st.in_quote then
    { st with in_para := false, in_ul := false, in_ol := false, in_quote := true }
  else st

/-- Pieces of the blockquote branch. -/
def quotePieces (st : MDState) (qt : List Char) : List (List Char) :=
  (if ¬st.in_quote then closeParaP st ++ closeListsP st ++ ["<blockquote>".data] else [])
    ++ (if ¬(quoteSt1 st).in_para then ["<p>".data] else [])
    ++ [renderInline qt ++ " ".data]

/-- State after the blockquote branch. -/
def quoteState (st : MDState) : MDState := { quoteSt1 st with in_para := true }

/-- Pieces of the unordered-list branch (after the close_quote call). -/
def ulPieces (st1 : MDState) (txt : List Char) : List (List Char) :=
  (if ¬st1.in_ul then
      closeParaP st1 ++ (if st1.in_ol then ["</ol>".data] else []) ++ ["<ul>".data]
    else [])
    ++ ["<li>".data ++ renderInline txt ++ "</li>".data]

/-- State after the unordered-list branch. -/
def ulState (st1 : MDState) : MDState :=
  if ¬st1.in_ul then { st1 with in_para := false, in_ol := false, in_ul := true } else st1

/-- Pieces of the ordered-list branch (after the close_quote call). -/
def olPieces (st1 : MDState) (txt : List Char) : List (List Char) :=
  (if ¬st1.in_ol then
      closeParaP st1 ++ (if st1.in_ul then ["</ul>".data] else []) ++ ["<ol>".data]
    else [])
    ++ ["<li>".data ++ renderInline txt ++ "</li>".data]

/-- State after the ordered-list branch. -/
def olState (st1 : MDState) : MDState :=
  if ¬st1.in_ol then { st1 with in_para := false, in_ul := false, in_ol := true } else st1

/-- Pieces of the plain-paragraph fall-through branch (after close_quote). -/
def plainPieces (st1 : MDState) (line : List Char) : List (List Char) :=
  (if ¬st1.in_para then ["<p>".data] else []) ++ [renderInline line ++ " ".data]

/-- State after the plain-paragraph branch. -/
def plainState (st1 : MDState) : MDState := { st1 with in_para := true }

/-! ## The scanning loop -/

/-- Result of the scanning loop: the emitted output pieces, the scan state at
the top of each loop iteration (ending with the state at loop exit), and the
state after the final close calls. -/
structure MDOut where
  pieces : List (List Char)
  trace : List MDState
  final : MDState

def stepCons (st : MDState) (ps : List (List Char)) (r : MDOut) : MDOut :=
  ⟨ps ++ r.pieces, st :: r.trace, r.final⟩

/-- Loop exit: close_para, close_lists, close_quote. -/
def finishRun (st : MDState) : MDOut :=
  ⟨closeAllP st, [st], clearedState st⟩

/-- The line-scanning loop of markdown_to_storage, one iteration per
constructor case, with the branch chain in source order.  Fuel is
instantiated with the number of lines; every iteration consumes at least
one line. -/
def mdLoopF : Nat → MDState → List (List Char) → MDOut
  | 0, st, _ => finishRun st
  | _ + 1, st, [] => finishRun st
  | f + 1, st, raw :: rest =>
    let line := rstripWs (rstripNl raw)
    if !st.in_code && isFenceStart line then
      stepCons st (closeAllP st ++ ["<pre><code>".data])
        (mdLoopF f { clearedState st with in_code := true } rest)
    else if st.in_code then
      if line = "```".data then
        stepCons st ["</code></pre>".data] (mdLoopF f { st with in_code := false } rest)
      else
        stepCons st [escapeHtml raw] (mdLoopF f st rest)
    else if isBlankLine line then
      stepCons st (closeAllP st) (mdLoopF f (clearedState st) rest)
    else if tableCond line rest then
      stepCons st
        (closeAllP st ++ tablePieces line (rest.tail.takeWhile isRowLine))
        (mdLoopF f (clearedState st) (rest.tail.dropWhile isRowLine))
    else if isHrLine line then
      stepCons st (closeAllP st ++ ["<hr/>".data]) (mdLoopF f (clearedState st) rest)
    else
      match headMatch line with
      | some (n, text) =>
        stepCons st (closeAllP st ++ [headingPiece n text]) (mdLoopF f (clearedState st) rest)
      | none =>
        if line.head? = some '>' then
          stepCons st (quotePieces st (lstripWs line.tail)) (mdLoopF f (quoteState st) rest)
        else
          match ulMatch line with
          | some txt =>
            stepCons st (closeQuoteP st ++ ulPieces { st with in_quote := false } txt)
              (mdLoopF f (ulState { st with in_quote := false }) rest)
          | none =>
            match olMatch line with
            | some txt =>
              stepCons st (closeQuoteP st ++ olPieces { st with in_quote := false } txt)
                (mdLoopF f (olState { st with in_quote := false }) rest)
            | none =>
              stepCons st (closeQuoteP st ++ plainPieces { st with in_quote := false } line)
                (mdLoopF f (plainState { st with in_quote := false }) rest)

/-- Run the full line scan on a document given as a character list. -/
def mdRun (md : List Char) : MDOut :=
  mdLoopF (splitLines md).length initState (splitLines md)

/-- Model of markdown_to_storage over character lists: scan, join the emitted
pieces with newlines, strip. -/
def markdownToStorageL (md : List Char) : List Char :=
  stripWs (joinNl (mdRun md).pieces)

/-- String-level markdown_to_storage, as in the source. -/
def markdown_to_storage (s : String) : String := ⟨markdownToStorageL s.data⟩

/-- String-level is_separator_row, as in the source. -/
def is_separator_row (s : String) : Bool := isSepRowL s.data

/-- String-level parse_cells, as in the source. -/
def parse_cells (s : String) : List String := (parseCellsL s.data).map (fun l => ⟨l⟩)

example : markdown_to_storage "# Title" = "<h1>Title</h1>" := by decide

example : markdown_to_storage "hello" = "<p>\nhello \n</p>" := by decide

example : markdown_to_storage "```" = "<pre><code>" := by decide

example : markdown_to_storage "> q\nx" = "<blockquote>\n<p>\nq \n</blockquote>\nx \n</p>" := by
  decide

example : is_separator_row "---|---" = true := by decide

example : is_separator_row "| :--- | ---: |" = true := by decide

example : is_separator_row "---" = false := by decide

example : parse_cells "| a | b |" = ["a", "b"] := by decide

example : parse_cells "||a|b||" = ["a", "b"] := by decide

/-! ## Tag kinds, token decompositions and occurrence counting -/

/-- The block and inline tag kinds named by the structural-balance property. -/
inductive Kind
  | p | ul | ol | blockquote | pre | code | table | thead | tbody | tr | th | td
  | h1 | h2 | h3 | h4 | h5 | h6 | strong | em | a
deriving DecidableEq, Repr

/-- The opening tag emitted for each kind. -/
def openL : Kind → List Char
  | .p => "<p>".data
  | .ul => "<ul>".data
  | .ol => "<ol>".data
  | .blockquote => "<blockquote>".data
  | .pre => "<pre>".data
  | .code => "<code>".data
  | .table => "<table>".data
  | .thead => "<thead>".data
  | .tbody => "<tbody>".data
  | .tr => "<tr>".data
  | .th => "<th>".data
  | .td => "<td>".data
  | .h1 => "<h1>".data
  | .h2 => "<h2>".data
  | .h3 => "<h3>".data
  | .h4 => "<h4>".data
  | .h5 => "<h5>".data
  | .h6 => "<h6>".data
  | .strong => "<strong>".data
  | .em => "<em>".data
  | .a => "<a href=\"".data

/-- The closing tag emitted for each kind. -/
def closeL : Kind → List Char
  | .p => "</p>".data
  | .ul => "</ul>".data
  | .ol => "</ol>".data
  | .blockquote => "</blockquote>".data
  | .pre => "</pre>".data
  | .code => "</code>".data
  | .table => "</table>".data
  | .thead => "</thead>".data
  | .tbody => "</tbody>".data
  | .tr => "</tr>".data
  | .th => "</th>".data
  | .td => "</td>".data
  | .h1 => "</h1>".data
  | .h2 => "</h2>".data
  | .h3 => "</h3>".data
  | .h4 => "</h4>".data
  | .h5 => "</h5>".data
  | .h6 => "</h6>".data
  | .strong => "</strong>".data
  | .em => "</em>".data
  | .a => "</a>".data

/-- The token strings out of which render_inline builds every angle bracket
it emits. -/
def inlineToks : List (List Char) :=
  ["<a href=\"".data, "\">".data, "</a>".data, "<code>".data, "</code>".data,
   "<strong>".data, "</strong>".data, "<em>".data, "</em>".data]

/-- All token strings out of which markdown_to_storage builds every
less-than sign it emits. -/
def allToks : List (List Char) :=
  ["<p>".data, "</p>".data, "<ul>".data, "</ul>".data, "<ol>".data, "</ol>".data,
   "<blockquote>".data, "</blockquote>".data, "<pre>".data, "</pre>".data,
   "<code>".data, "</code>".data, "<table>".data, "</table>".data,
   "<thead>".data, "</thead>".data, "<tbody>".data, "</tbody>".data,
   "<tr>".data, "</tr>".data, "<th>".data, "</th>".data, "<td>".data, "</td>".data,
   "<h1>".data, "</h1>".data, "<h2>".data, "</h2>".data, "<h3>".data, "</h3>".data,
   "<h4>".data, "</h4>".data, "<h5>".data, "</h5>".data, "<h6>".data, "</h6>".data,
   "<li>".data, "</li>".data, "<hr/>".data,
   "<a href=\"".data, "\">".data, "</a>".data, "<strong>".data, "</strong>".data,
   "<em>".data, "</em>".data]

/-- Strings generated as interleavings of safe characters and whole tokens
from a token list. -/
inductive TokSeq (T : List (List Char)) (safe : Char → Prop) : List Char → Prop
  | nil : TokSeq T safe []
  | ch {c s} : safe c → TokSeq T safe s → TokSeq T safe (c :: s)
  | tok {t s} : t ∈ T → TokSeq T safe s → TokSeq T safe (t ++ s)

abbrev inlineSafeCh (c : Char) : Prop := c ≠ '<' ∧ c ≠ '>'

abbrev blockSafeCh (c : Char) : Prop := c ≠ '<'

/-- Every angle bracket of the string lies inside a renderer-emitted inline
token occurrence. -/
def InlineSafe (s : List Char) : Prop := TokSeq inlineToks inlineSafeCh s

/-- Every less-than sign of the string begins a renderer-emitted tag token. -/
def BlockSafe (s : List Char) : Prop := TokSeq allToks blockSafeCh s

theorem TokSeq.append {T safe} {a b : List Char} (ha : TokSeq T safe a)
    (hb : TokSeq T safe b) : TokSeq T safe (a ++ b) := by
  induction ha with
  | nil => exact hb
  | ch hc _ ih => exact TokSeq.ch hc ih
  | tok ht _ ih => rw [List.append_assoc]; exact TokSeq.tok ht ih

theorem TokSeq.single {T safe} {t : List Char} (ht : t ∈ T) : TokSeq T safe t := by
  have h := TokSeq.tok (s := []) ht (TokSeq.nil : TokSeq T safe [])
  rwa [List.append_nil] at h

theorem TokSeq.of_all_safe {T safe} {s : List Char} (h : ∀ c ∈ s, safe c) :
    TokSeq T safe s := by
  induction s with
  | nil => exact TokSeq.nil
  | cons c t ih =>
    exact TokSeq.ch (h c (List.mem_cons_self c t)) (ih fun d hd => h d (List.mem_cons_of_mem c hd))

theorem TokSeq.mono {T T' safe safe'} {s : List Char}
    (hT : ∀ t ∈ T, t ∈ T' ∨ ∀ c ∈ t, safe' c) (hs : ∀ c, safe c → safe' c)
    (h : TokSeq T safe s) : TokSeq T' safe' s := by
  induction h with
  | nil => exact TokSeq.nil
  | ch hc _ ih => exact TokSeq.ch (hs _ hc) ih
  | tok ht _ ih =>
    rcases hT _ ht with h1 | h1
    · exact TokSeq.tok h1 ih
    · exact TokSeq.append (TokSeq.of_all_safe h1) ih

theorem inlineToks_sub : ∀ t ∈ inlineToks, t ∈ allToks := by decide

theorem InlineSafe.blockSafe {s : List Char} (h : InlineSafe s) : BlockSafe s := by
  refine TokSeq.mono ?_ ?_ h
  · exact fun t ht => Or.inl (inlineToks_sub t ht)
  · exact fun c hc => hc.1

/-! ### Counting lemmas -/

theorem countOcc_nil (pat : List Char) : countOcc pat [] = 0 := rfl

theorem countOcc_cons (pat : List Char) (c : Char) (s : List Char) :
    countOcc pat (c :: s) = (if pat.isPrefixOf (c :: s) then 1 else 0) + countOcc pat s := rfl

theorem countOcc_cons_ne {pat : List Char} {h : Char} (hh : pat.head? = some h)
    {c : Char} (hc : c ≠ h) (s : List Char) : countOcc pat (c :: s) = countOcc pat s := by
  match pat, hh with
  | p0 :: pt, hh =>
    have hp0 : p0 = h := by simpa using hh
    rw [countOcc_cons]
    have : (p0 :: pt).isPrefixOf (c :: s) = false := by
      simp [List.isPrefixOf]
      intro hc2
      exact absurd (hc2 ▸ hp0.symm) (fun he => hc he.symm)
    rw [this]
    simp

theorem countOcc_nolt_append {pat : List Char} (hh : pat.head? = some '<')
    {u : List Char} (hu : ∀ c ∈ u, c ≠ '<') (x : List Char) :
    countOcc pat (u ++ x) = countOcc pat x := by
  induction u with
  | nil => rfl
  | cons c t ih =>
    rw [List.cons_append, countOcc_cons_ne hh (hu c (List.mem_cons_self c t))]
    exact ih fun d hd => hu d (List.mem_cons_of_mem c hd)

theorem countOcc_nolt {pat : List Char} (hh : pat.head? = some '<')
    {u : List Char} (hu : ∀ c ∈ u, c ≠ '<') : countOcc pat u = 0 := by
  have h := countOcc_nolt_append hh hu []
  rwa [List.append_nil] at h

/-- Compatibility of a pattern with a token: equal, or neither is a prefix of
the other. -/
abbrev PatTok (pat t : List Char) : Prop :=
  pat = t ∨ (pat.isPrefixOf t = false ∧ t.isPrefixOf pat = false)

/-- Well-formed token: either headed by a less-than sign that does not recur,
or free of less-than signs. -/
abbrev TokOk (t : List Char) : Prop :=
  (t.head? = some '<' ∧ ∀ c ∈ t.tail, c ≠ '<') ∨ (∀ c ∈ t, c ≠ '<')

theorem countOcc_tok_append {pat t : List Char} (hh : pat.head? = some '<')
    (ht : t.head? = some '<') (ht1 : ∀ c ∈ t.tail, c ≠ '<') (hpt : PatTok pat t)
    (x : List Char) :
    countOcc pat (t ++ x) = (if pat = t then 1 else 0) + countOcc pat x := by
  match t, ht, ht1, hpt with
  | t0 :: tt, ht, ht1, hpt =>
    have ht0 : t0 = '<' := by simpa using ht
    subst ht0
    have htail : ∀ c ∈ tt, c ≠ '<' := by simpa using ht1
    have hx : countOcc pat (('<' :: tt) ++ x) =
        (if pat.isPrefixOf (('<' :: tt) ++ x) then 1 else 0) + countOcc pat x := by
      rw [List.cons_append, countOcc_cons, countOcc_nolt_append hh htail x]
    rw [hx]
    by_cases he : pat = '<' :: tt
    · have hp : pat.isPrefixOf (('<' :: tt) ++ x) = true := by
        rw [List.isPrefixOf_iff_prefix, he]
        exact List.prefix_append _ _
      simp [hp, he]
    · have hp : pat.isPrefixOf (('<' :: tt) ++ x) = false := by
        by_contra hcon
        have hpre : pat <+: ('<' :: tt) ++ x := by
          rw [← List.isPrefixOf_iff_prefix]
          simpa using eq_true_of_ne_false hcon
        have htpre : ('<' :: tt) <+: ('<' :: tt) ++ x := List.prefix_append _ _
        rcases hpt with h1 | ⟨h1, h2⟩
        · exact he h1
        · rcases Nat.le_total pat.length ('<' :: tt).length with hle | hle
          · have hq := List.prefix_of_prefix_length_le hpre htpre hle
            rw [← List.isPrefixOf_iff_prefix] at hq
            simp [h1] at hq
          · have hq := List.prefix_of_prefix_length_le htpre hpre hle
            rw [← List.isPrefixOf_iff_prefix] at hq
            simp [h2] at hq
      rw [hp]
      simp [he]

theorem TokSeq.countOcc_append {T : List (List Char)} {safe : Char → Prop}
    {pat a : List Char} (hh : pat.head? = some '<')
    (hT : ∀ t ∈ T, TokOk t) (hPT : ∀ t ∈ T, PatTok pat t)
    (hs : ∀ c, safe c → c ≠ '<') (ha : TokSeq T safe a) (b : List Char) :
    countOcc pat (a ++ b) = countOcc pat a + countOcc pat b := by
  induction ha with
  | nil => simp [countOcc_nil]
  | ch hc _ ih =>
    rw [List.cons_append, countOcc_cons_ne hh (hs _ hc), countOcc_cons_ne hh (hs _ hc), ih]
  | tok ht _ ih =>
    rename_i t s _
    rcases hT t ht with ⟨h1, h2⟩ | h1
    · rw [List.append_assoc, countOcc_tok_append hh h1 h2 (hPT t ht),
        countOcc_tok_append hh h1 h2 (hPT t ht), ih]
      ring
    · rw [List.append_assoc, countOcc_nolt_append hh h1, countOcc_nolt_append hh h1, ih]

theorem TokSeq.countOcc_zero {T : List (List Char)} {safe : Char → Prop}
    {pat a : List Char} (hh : pat.head? = some '<')
    (hT : ∀ t ∈ T, TokOk t)
    (hPT : ∀ t ∈ T, pat.isPrefixOf t = false ∧ t.isPrefixOf pat = false)
    (hs : ∀ c, safe c → c ≠ '<') (ha : TokSeq T safe a) : countOcc pat a = 0 := by
  induction ha with
  | nil => rfl
  | ch hc _ ih => rw [countOcc_cons_ne hh (hs _ hc)]; exact ih
  | tok ht _ ih =>
    rename_i t s _
    rcases hT t ht with ⟨h1, h2⟩ | h1
    · rw [countOcc_tok_append hh h1 h2 (Or.inr (hPT t ht))]
      have hne : pat ≠ t := by
        intro he
        subst he
        have : pat.isPrefixOf pat = true := by
          rw [List.isPrefixOf_iff_prefix]
        simp [(hPT pat ht).1] at this
      simp [hne, ih]
    · rw [countOcc_nolt_append hh h1]; exact ih

/-! ### Counting through strip and join -/

theorem isWs_ne_lt {c : Char} (h : isWs c = true) : c ≠ '<' := by
  intro he
  subst he
  exact absurd h (by decide)

theorem countOcc_cons_pre (pat : List Char) (c : Char) (s : List Char) :
    countOcc pat (c :: s) = (if pat <+: (c :: s) then 1 else 0) + countOcc pat s := by
  simp only [countOcc_cons, List.isPrefixOf_iff_prefix]

theorem countOcc_lstrip {pat : List Char} (hh : pat.head? = some '<') (l : List Char) :
    countOcc pat (lstripWs l) = countOcc pat l := by
  induction l with
  | nil => rfl
  | cons c t ih =>
    by_cases hc : isWs c = true
    · rw [show lstripWs (c :: t) = lstripWs t by simp [lstripWs, List.dropWhile_cons, hc], ih,
        countOcc_cons_ne hh (isWs_ne_lt hc)]
    · rw [show lstripWs (c :: t) = c :: t by simp [lstripWs, List.dropWhile_cons, hc]]

theorem countOcc_ws_zero {pat : List Char} (hh : pat.head? = some '<')
    {b : List Char} (hb : ∀ c ∈ b, isWs c = true) : countOcc pat b = 0 :=
  countOcc_nolt hh fun c hc => isWs_ne_lt (hb c hc)

theorem countOcc_append_ws {pat : List Char} (hh : pat.head? = some '<')
    (hl : ∀ lc, pat.getLast? = some lc → isWs lc = false)
    {b : List Char} (hb : ∀ c ∈ b, isWs c = true) (a : List Char) :
    countOcc pat (a ++ b) = countOcc pat a := by
  induction a with
  | nil =>
    simp only [List.nil_append, countOcc_nil]
    exact countOcc_ws_zero hh hb
  | cons c a2 ih =>
    rw [List.cons_append, countOcc_cons_pre, countOcc_cons_pre, ih]
    have hiff : (pat <+: c :: (a2 ++ b)) ↔ (pat <+: c :: a2) := by
      constructor
      · intro h2
        have hc3 : (c :: a2) <+: c :: (a2 ++ b) := by
          rw [← List.cons_append]
          exact List.prefix_append _ _
        by_cases hle : pat.length ≤ (c :: a2).length
        · exact List.prefix_of_prefix_length_le h2 hc3 hle
        · exfalso
          push_neg at hle
          have hc2 : (c :: a2) <+: pat :=
            List.prefix_of_prefix_length_le hc3 h2 (Nat.le_of_lt hle)
          rcases hc2 with ⟨p2, hp2⟩
          have hp2ne : p2 ≠ [] := by
            intro he
            rw [he, List.append_nil] at hp2
            rw [← hp2] at hle
            exact Nat.lt_irrefl _ hle
          obtain ⟨lc, hlc⟩ : ∃ lc, p2.getLast? = some lc := by
            cases hcase : p2.getLast? with
            | some lc => exact ⟨lc, rfl⟩
            | none =>
              rw [List.getLast?_eq_none_iff] at hcase
              exact absurd hcase hp2ne
          have hg : pat.getLast? = some lc := by
            rw [← hp2, List.getLast?_append, hlc]
            rfl
          rcases h2 with ⟨r, hr⟩
          rw [← hp2, List.append_assoc, ← List.cons_append] at hr
          have hb2 : p2 ++ r = b := List.append_cancel_left hr
          have hmem : lc ∈ b := by
            rw [List.getLast?_eq_some_iff] at hlc
            rcases hlc with ⟨ys, hys⟩
            rw [← hb2, hys]
            simp
          have hw := hb lc hmem
          rw [hl lc hg] at hw
          exact Bool.noConfusion hw
      · intro h1
        have hc3 : (c :: a2) <+: c :: (a2 ++ b) := by
          rw [← List.cons_append]
          exact List.prefix_append _ _
        exact h1.trans hc3
    simp only [hiff]

theorem rstrip_decomp (l : List Char) :
    l = rstripWs l ++ (l.reverse.takeWhile isWs).reverse ∧
      ∀ c ∈ (l.reverse.takeWhile isWs).reverse, isWs c = true := by
  constructor
  · have h := List.takeWhile_append_dropWhile isWs l.reverse
    have h2 := congrArg List.reverse h
    rw [List.reverse_append] at h2
    rw [List.reverse_reverse] at h2
    exact h2.symm
  · intro c hc
    rw [List.mem_reverse] at hc
    exact List.mem_takeWhile_imp hc

theorem countOcc_rstrip {pat : List Char} (hh : pat.head? = some '<')
    (hl : ∀ lc, pat.getLast? = some lc → isWs lc = false) (l : List Char) :
    countOcc pat (rstripWs l) = countOcc pat l := by
  obtain ⟨hdec, hws⟩ := rstrip_decomp l
  conv_rhs => rw [hdec]
  rw [countOcc_append_ws hh hl hws]

theorem countOcc_strip {pat : List Char} (hh : pat.head? = some '<')
    (hl : ∀ lc, pat.getLast? = some lc → isWs lc = false) (l : List Char) :
    countOcc pat (stripWs l) = countOcc pat l := by
  rw [stripWs, countOcc_rstrip hh hl, countOcc_lstrip hh]

theorem countOcc_joinNl {pat : List Char} (hh : pat.head? = some '<')
    (hT : ∀ t ∈ allToks, TokOk t) (hPT : ∀ t ∈ allToks, PatTok pat t)
    (ps : List (List Char)) (hps : ∀ p ∈ ps, BlockSafe p) :
    countOcc pat (joinNl ps) = (ps.map (countOcc pat)).sum := by
  induction ps with
  | nil => rfl
  | cons p qs ih =>
    cases qs with
    | nil => simp [joinNl]
    | cons q qs2 =>
      have hp : BlockSafe p := hps p (List.mem_cons_self _ _)
      have hrest : ∀ r ∈ q :: qs2, BlockSafe r :=
        fun r hr => hps r (List.mem_cons_of_mem _ hr)
      rw [show joinNl (p :: q :: qs2) = p ++ '\n' :: joinNl (q :: qs2) from rfl]
      rw [TokSeq.countOcc_append hh hT hPT (fun c hc => hc) hp,
        countOcc_cons_ne hh (by decide), ih hrest]
      simp

/-! ### Facts about the token sets and tag kinds -/

theorem inlineToks_ok : ∀ t ∈ inlineToks, TokOk t := by decide

theorem allToks_ok : ∀ t ∈ allToks, TokOk t := by decide

theorem inlineToks_ne_nil : ∀ t ∈ inlineToks, t ≠ [] := by decide

theorem inlineToks_head : ∀ t ∈ inlineToks, t.head? = some '<' ∨ t.head? = some '"' := by decide

theorem kindOpen_head : ∀ k : Kind, (openL k).head? = some '<' := by
  intro k; cases k <;> decide

theorem kindClose_head : ∀ k : Kind, (closeL k).head? = some '<' := by
  intro k; cases k <;> decide

theorem kindOpen_patTok_inline : ∀ k : Kind, ∀ t ∈ inlineToks, PatTok (openL k) t := by
  intro k; cases k <;> decide

theorem kindClose_patTok_inline : ∀ k : Kind, ∀ t ∈ inlineToks, PatTok (closeL k) t := by
  intro k; cases k <;> decide

theorem kindOpen_patTok_all : ∀ k : Kind, ∀ t ∈ allToks, PatTok (openL k) t := by
  intro k; cases k <;> decide

theorem kindClose_patTok_all : ∀ k : Kind, ∀ t ∈ allToks, PatTok (closeL k) t := by
  intro k; cases k <;> decide

/-! ### The per-kind open-minus-close difference -/

/-- Opening-tag count minus closing-tag count of a kind, as an integer. -/
def diffK (k : Kind) (s : List Char) : ℤ :=
  (countOcc (openL k) s : ℤ) - countOcc (closeL k) s

theorem diffK_cons_ne {c : Char} (hc : c ≠ '<') (k : Kind) (s : List Char) :
    diffK k (c :: s) = diffK k s := by
  rw [diffK, diffK, countOcc_cons_ne (kindOpen_head k) hc, countOcc_cons_ne (kindClose_head k) hc]

theorem diffK_append_inline {a : List Char} (ha : InlineSafe a) (k : Kind) (b : List Char) :
    diffK k (a ++ b) = diffK k a + diffK k b := by
  rw [diffK, diffK, diffK,
    TokSeq.countOcc_append (kindOpen_head k) inlineToks_ok (kindOpen_patTok_inline k)
      (fun c hc => hc.1) ha b,
    TokSeq.countOcc_append (kindClose_head k) inlineToks_ok (kindClose_patTok_inline k)
      (fun c hc => hc.1) ha b]
  push_cast
  ring

theorem diffK_append_block {a : List Char} (ha : BlockSafe a) (k : Kind) (b : List Char) :
    diffK k (a ++ b) = diffK k a + diffK k b := by
  rw [diffK, diffK, diffK,
    TokSeq.countOcc_append (kindOpen_head k) allToks_ok (kindOpen_patTok_all k)
      (fun c hc => hc) ha b,
    TokSeq.countOcc_append (kindClose_head k) allToks_ok (kindClose_patTok_all k)
      (fun c hc => hc) ha b]
  push_cast
  ring

theorem diffK_nolt {u : List Char} (hu : ∀ c ∈ u, c ≠ '<') (k : Kind) : diffK k u = 0 := by
  rw [diffK, countOcc_nolt (kindOpen_head k) hu, countOcc_nolt (kindClose_head k) hu]
  rfl

/-! ### Facts about splitAtFirst -/

theorem dropWhile_ne_head {d x : Char} : ∀ {l rest : List Char},
    l.dropWhile (· ≠ d) = x :: rest → x = d := by
  intro l
  induction l with
  | nil => intro rest h; simp at h
  | cons c t ih =>
    intro rest h
    rw [List.dropWhile_cons] at h
    by_cases hc : c = d
    · rw [if_neg (by simp [hc])] at h
      injection h with h1 _
      rw [← h1]
      exact hc
    · rw [if_pos (by simp [hc])] at h
      exact ih h

theorem splitAtFirst_eq {d : Char} {l g w : List Char}
    (h : splitAtFirst d l = some (g, w)) :
    l = g ++ d :: w ∧ g ≠ [] ∧ (∀ c ∈ g, c ≠ d) ∧ g = l.takeWhile (· ≠ d) := by
  unfold splitAtFirst at h
  cases htw : l.takeWhile (· ≠ d) with
  | nil => rw [htw] at h; exact absurd h (by simp)
  | cons a g2 =>
    rw [htw] at h
    cases hdw : l.dropWhile (· ≠ d) with
    | nil => rw [hdw] at h; exact absurd h (by simp)
    | cons x rest =>
      rw [hdw] at h
      have hg1 : a :: g2 = g := congrArg Prod.fst (Option.some_injective _ h)
      have hw1 : rest = w := congrArg Prod.snd (Option.some_injective _ h)
      have hx : x = d := dropWhile_ne_head hdw
      refine ⟨?_, ?_, ?_, hg1.symm⟩
      · rw [← hg1, ← hw1, ← hx]
        have hj := List.takeWhile_append_dropWhile (fun c => decide (c ≠ d)) l
        rw [htw, hdw] at hj
        exact hj.symm
      · rw [← hg1]
        exact List.cons_ne_nil a g2
      · intro c hc
        rw [← hg1, ← htw] at hc
        have hm := List.mem_takeWhile_imp hc
        simpa using hm

theorem splitAtFirst_length {d : Char} {l g w : List Char}
    (h : splitAtFirst d l = some (g, w)) : w.length < l.length := by
  obtain ⟨hdec, hne, _, _⟩ := splitAtFirst_eq h
  rw [hdec, List.length_append, List.length_cons]
  cases g with
  | nil => exact absurd rfl hne
  | cons c t => simp; omega

/-! ### InlineSafe inversion and splitting -/

theorem TokSeq.cons_inv {T : List (List Char)} {safe : Char → Prop} {c : Char} {s : List Char}
    (h : TokSeq T safe (c :: s)) :
    (safe c ∧ TokSeq T safe s) ∨
      ∃ t s2, t ∈ T ∧ c :: s = t ++ s2 ∧ TokSeq T safe s2 := by
  generalize hl : c :: s = l at h
  cases h with
  | nil => simp at hl
  | ch hc hs =>
    injection hl with h1 h2
    subst h1
    subst h2
    exact Or.inl ⟨hc, hs⟩
  | tok ht hs =>
    rename_i t s2
    exact Or.inr ⟨t, s2, ht, rfl, hs⟩

theorem InlineSafe.tail_of_head {c : Char} {s : List Char} (hc1 : c ≠ '<') (hc2 : c ≠ '"')
    (h : InlineSafe (c :: s)) : InlineSafe s := by
  rcases TokSeq.cons_inv h with ⟨_, hs⟩ | ⟨t, s2, ht, heq, _⟩
  · exact hs
  · exfalso
    cases t with
    | nil => exact inlineToks_ne_nil [] ht rfl
    | cons x tt =>
      have hx : x = c := by
        have hh := congrArg List.head? heq
        simpa using hh.symm
      rcases inlineToks_head (x :: tt) ht with h1 | h1
      · rw [hx] at h1; simp at h1; exact hc1 h1
      · rw [hx] at h1; simp at h1; exact hc2 h1

theorem takeWhile_append_of_all {p : Char → Bool} {t : List Char}
    (h : ∀ a ∈ t, p a = true) (s : List Char) :
    (t ++ s).takeWhile p = t ++ s.takeWhile p ∧ (t ++ s).dropWhile p = s.dropWhile p := by
  induction t with
  | nil => simp
  | cons c t2 ih =>
    have hc := h c (List.mem_cons_self c t2)
    have ih2 := ih fun a ha => h a (List.mem_cons_of_mem c ha)
    constructor
    · rw [List.cons_append, List.takeWhile_cons, hc, ih2.1]
      simp
    · rw [List.cons_append, List.dropWhile_cons, hc, ih2.2]
      simp

theorem InlineSafe.split {d : Char} (hd : ∀ t ∈ inlineToks, ∀ c ∈ t, c ≠ d)
    {u : List Char} (h : InlineSafe u) :
    InlineSafe (u.takeWhile (· ≠ d)) ∧ InlineSafe (u.dropWhile (· ≠ d)) := by
  induction h with
  | nil => exact ⟨TokSeq.nil, TokSeq.nil⟩
  | ch hc hs ih =>
    rename_i c s
    by_cases hcd : c = d
    · rw [List.takeWhile_cons, List.dropWhile_cons, if_neg (by simp [hcd]),
        if_neg (by simp [hcd])]
      exact ⟨TokSeq.nil, TokSeq.ch hc hs⟩
    · rw [List.takeWhile_cons, List.dropWhile_cons, if_pos (by simp [hcd]),
        if_pos (by simp [hcd])]
      exact ⟨TokSeq.ch hc ih.1, ih.2⟩
  | tok ht hs ih =>
    rename_i t s
    have hall : ∀ a ∈ t, (decide (a ≠ d)) = true := by
      intro a ha
      simp [hd t ht a ha]
    obtain ⟨h1, h2⟩ := takeWhile_append_of_all hall s
    rw [h1, h2]
    exact ⟨TokSeq.tok ht ih.1, ih.2⟩

/-! ### The generic scan lemma -/

/-- The lookbehind character after consuming a list of characters. -/
def lastD (p : Option Char) : List Char → Option Char
  | [] => p
  | c :: t => lastD (some c) t

theorem scanSub_skip {m : Option Char → List Char → Option (List Char × Char × List Char)}
    {isDelim : Char → Bool}
    (Hhead : ∀ (p : Option Char) (a : Char) (s : List Char),
      isDelim a = false → m p (a :: s) = none) :
    ∀ t : List Char, (∀ a ∈ t, isDelim a = false) →
      ∀ (f : Nat) (p : Option Char) (s : List Char),
        scanSub m f p (t ++ s) = t ++ scanSub m (f - t.length) (lastD p t) s := by
  intro t
  induction t with
  | nil => intro _ f p s; simp [lastD]
  | cons a t2 ihh =>
    intro hta f p s
    cases f with
    | zero => simp [scanSub]
    | succ f2 =>
      have hnone := Hhead p a (t2 ++ s) (hta a (List.mem_cons_self a t2))
      have hred : scanSub m (f2 + 1) p ((a :: t2) ++ s) =
          a :: scanSub m f2 (some a) (t2 ++ s) := by
        rw [List.cons_append]
        simp [scanSub, hnone]
      rw [hred, ihh (fun x hx => hta x (List.mem_cons_of_mem a hx)) f2 (some a) s]
      simp [lastD, List.cons_append, Nat.succ_sub_succ]

theorem scanSub_safe_diff
    {m : Option Char → List Char → Option (List Char × Char × List Char)}
    {isDelim : Char → Bool}
    (Hhead : ∀ (p : Option Char) (a : Char) (s : List Char),
      isDelim a = false → m p (a :: s) = none)
    (Hdelim : ∀ t ∈ inlineToks, ∀ a ∈ t, isDelim a = false)
    (Hmatch : ∀ (p : Option Char) (s0 r : List Char) (c : Char) (t : List Char),
      m p s0 = some (r, c, t) → InlineSafe s0 →
        InlineSafe r ∧ InlineSafe t ∧ t.length < s0.length ∧
          ∀ k, diffK k r + diffK k t = diffK k s0) :
    ∀ (n : Nat) (s : List Char), s.length ≤ n → ∀ f, s.length ≤ f → ∀ p, InlineSafe s →
      InlineSafe (scanSub m f p s) ∧ ∀ k, diffK k (scanSub m f p s) = diffK k s := by
  intro n
  induction n with
  | zero =>
    intro s hs f hf p hsafe
    have hnil : s = [] := List.length_eq_zero.mp (Nat.le_zero.mp hs)
    subst hnil
    cases f with
    | zero => exact ⟨TokSeq.nil, fun k => rfl⟩
    | succ f2 => exact ⟨TokSeq.nil, fun k => rfl⟩
  | succ n ih =>
    intro s hs f hf p hsafe
    cases s with
    | nil =>
      cases f with
      | zero => exact ⟨TokSeq.nil, fun k => rfl⟩
      | succ f2 => exact ⟨TokSeq.nil, fun k => rfl⟩
    | cons a s2 =>
      cases f with
      | zero => simp at hf
      | succ f2 =>
        cases hm : m p (a :: s2) with
        | some rct =>
          obtain ⟨r, c, t⟩ := rct
          have hred : scanSub m (f2 + 1) p (a :: s2) = r ++ scanSub m f2 (some c) t := by
            simp [scanSub, hm]
          obtain ⟨hr, ht, hlen, hdiff⟩ := Hmatch p (a :: s2) r c t hm hsafe
          have hlen2 : t.length ≤ n := by
            simp only [List.length_cons] at hs hlen
            omega
          have hfuel : t.length ≤ f2 := by
            simp only [List.length_cons] at hf hlen
            omega
          obtain ⟨hsc, hdc⟩ := ih t hlen2 f2 hfuel (some c) ht
          refine ⟨hred ▸ TokSeq.append hr hsc, ?_⟩
          intro k
          rw [hred, diffK_append_inline hr k, hdc k, hdiff k]
        | none =>
          rcases TokSeq.cons_inv hsafe with ⟨hca, hs2⟩ | ⟨t, s3, htT, heq, hs3⟩
          · have hred : scanSub m (f2 + 1) p (a :: s2) = a :: scanSub m f2 (some a) s2 := by
              simp [scanSub, hm]
            have hlen2 : s2.length ≤ n := by simp at hs; omega
            have hfuel : s2.length ≤ f2 := by simp at hf; omega
            obtain ⟨hsc, hdc⟩ := ih s2 hlen2 f2 hfuel (some a) hs2
            refine ⟨hred ▸ TokSeq.ch hca hsc, ?_⟩
            intro k
            rw [hred, diffK_cons_ne hca.1 k, hdc k, diffK_cons_ne hca.1 k]
          · have htne : t ≠ [] := inlineToks_ne_nil t htT
            have hskip := scanSub_skip Hhead t
              (fun x hx => Hdelim t htT x hx) (f2 + 1) p s3
            have hll : (a :: s2).length = t.length + s3.length := by
              rw [heq, List.length_append]
            have htpos : 0 < t.length := List.length_pos.mpr htne
            have hlen3 : s3.length ≤ n := by
              have := hs
              simp only [List.length_cons] at this
              omega
            have hfuel3 : s3.length ≤ f2 + 1 - t.length := by
              have := hf
              simp only [List.length_cons] at this
              omega
            obtain ⟨hsc, hdc⟩ := ih s3 hlen3 (f2 + 1 - t.length) hfuel3 (lastD p t) hs3
            refine ⟨?_, ?_⟩
            · rw [heq, hskip]
              exact TokSeq.tok htT hsc
            · intro k
              rw [heq, hskip, diffK_append_inline (TokSeq.single htT) k, hdc k,
                diffK_append_inline (TokSeq.single htT) k]

/-! ### The individual substitution passes -/

theorem code_pair : ∀ k, diffK k "<code>".data + diffK k "</code>".data = 0 := by
  intro k
  cases k <;> decide

theorem strong_pair : ∀ k, diffK k "<strong>".data + diffK k "</strong>".data = 0 := by
  intro k
  cases k <;> decide

theorem em_pair : ∀ k, diffK k "<em>".data + diffK k "</em>".data = 0 := by
  intro k
  cases k <;> decide

/-- An open-token, group, close-token replacement template is InlineSafe and
leaves every per-kind difference equal to that of the group. -/
theorem template_spec {o c : List Char} (ho : o ∈ inlineToks) (hc : c ∈ inlineToks)
    (hpair : ∀ k, diffK k o + diffK k c = 0) {g : List Char} (hg : InlineSafe g) :
    InlineSafe (o ++ g ++ c) ∧ ∀ k, diffK k (o ++ g ++ c) = diffK k g := by
  constructor
  · exact TokSeq.append (TokSeq.append (TokSeq.single ho) hg) (TokSeq.single hc)
  · intro k
    rw [diffK_append_inline (TokSeq.append (TokSeq.single ho) hg) k,
      diffK_append_inline (TokSeq.single ho) k]
    have hp := hpair k
    omega

/-- The per-kind difference of a consumed delimiter-group-delimiter region. -/
theorem consumed_diff {d : Char} (hd : d ≠ '<') {g : List Char} (hg : InlineSafe g)
    (w : List Char) (k : Kind) : diffK k (d :: (g ++ d :: w)) = diffK k g + diffK k w := by
  rw [diffK_cons_ne hd, diffK_append_inline hg, diffK_cons_ne hd]

theorem matchCode_none {p : Option Char} {a : Char} {s : List Char} (h : a ≠ '`') :
    matchCode p (a :: s) = none := by
  show (if a = '`' then _ else none) = none
  rw [if_neg h]

theorem matchCode_spec {p : Option Char} {s0 r : List Char} {c0 : Char} {t : List Char}
    (h : matchCode p s0 = some (r, c0, t)) (hs : InlineSafe s0) :
    InlineSafe r ∧ InlineSafe t ∧ t.length < s0.length ∧
      ∀ k, diffK k r + diffK k t = diffK k s0 := by
  cases s0 with
  | nil => exact absurd h (by simp [matchCode])
  | cons a u =>
    by_cases ha : a = '`'
    · subst ha
      have hred : matchCode p ('`' :: u) = (match splitAtFirst '`' u with
          | some (g, w) => some ("<code>".data ++ g ++ "</code>".data, '`', w)
          | none => none) := by
        show (if ('`' : Char) = '`' then _ else none) = _
        simp
      rw [hred] at h
      cases hsp : splitAtFirst '`' u with
      | none => rw [hsp] at h; exact absurd h (by simp)
      | some gw =>
        obtain ⟨g, w⟩ := gw
        rw [hsp] at h
        simp only [Option.some.injEq, Prod.mk.injEq] at h
        obtain ⟨hr', hc', ht'⟩ := h
        subst hr'
        subst hc'
        subst ht'
        have hu : InlineSafe u := hs.tail_of_head (by decide) (by decide)
        obtain ⟨hdec, hgne, hgno, hgtw⟩ := splitAtFirst_eq hsp
        have hsplit := InlineSafe.split (d := '`') (by decide) hu
        have hg : InlineSafe g := by rw [hgtw]; exact hsplit.1
        have hdw : u.dropWhile (· ≠ '`') = '`' :: w := by
          have h1 : g ++ u.dropWhile (· ≠ '`') = g ++ ('`' :: w) := by
            conv_lhs => rw [hgtw]
            rw [List.takeWhile_append_dropWhile]
            exact hdec
          exact List.append_cancel_left h1
        have hw : InlineSafe w := by
          have h2 : InlineSafe ('`' :: w) := by rw [← hdw]; exact hsplit.2
          exact h2.tail_of_head (by decide) (by decide)
        obtain ⟨hrs, hrd⟩ := template_spec (by decide) (by decide) code_pair hg
        refine ⟨hrs, hw, ?_, ?_⟩
        · rw [hdec]
          simp only [List.length_cons, List.length_append]
          omega
        · intro k
          rw [hrd k, hdec, consumed_diff (by decide) hg w k]
    · rw [matchCode_none ha] at h
      exact absurd h (by simp)

theorem subPass_code {s : List Char} (hs : InlineSafe s) :
    InlineSafe (subPass matchCode s) ∧ ∀ k, diffK k (subPass matchCode s) = diffK k s :=
  @scanSub_safe_diff matchCode (fun c => decide (c = '`'))
    (fun _ _ _ hne => matchCode_none (by simpa using hne))
    (by decide)
    (fun _ _ _ _ _ hm hs0 => matchCode_spec hm hs0)
    s.length s le_rfl s.length le_rfl none hs

theorem matchStrongStar_none {p : Option Char} {a : Char} {s : List Char} (h : a ≠ '*') :
    matchStrongStar p (a :: s) = none := by
  cases s with
  | nil => rfl
  | cons b t =>
    show (if a = '*' ∧ b = '*' then _ else none) = none
    rw [if_neg (fun hab => h hab.1)]

theorem matchStrongStar_spec {p : Option Char} {s0 r : List Char} {c0 : Char} {t : List Char}
    (h : matchStrongStar p s0 = some (r, c0, t)) (hs : InlineSafe s0) :
    InlineSafe r ∧ InlineSafe t ∧ t.length < s0.length ∧
      ∀ k, diffK k r + diffK k t = diffK k s0 := by
  cases s0 with
  | nil => exact absurd h (by simp [matchStrongStar])
  | cons a u =>
    cases u with
    | nil => exact absurd h (by simp [matchStrongStar])
    | cons b v =>
      by_cases hab : a = '*' ∧ b = '*'
      · obtain ⟨ha, hb⟩ := hab
        subst ha
        subst hb
        have hred : matchStrongStar p ('*' :: '*' :: v) = (match splitAtFirst '*' v with
            | some (g, w) =>
              match w with
              | c :: w2 => if c = '*' then
                  some ("<strong>".data ++ g ++ "</strong>".data, '*', w2) else none
              | [] => none
            | none => none) := by
          show (if ('*' : Char) = '*' ∧ ('*' : Char) = '*' then _ else none) = _
          simp
        rw [hred] at h
        cases hsp : splitAtFirst '*' v with
        | none => rw [hsp] at h; exact absurd h (by simp)
        | some gw =>
          obtain ⟨g, w⟩ := gw
          rw [hsp] at h
          cases w with
          | nil => exact absurd h (by simp)
          | cons c1 w2 =>
            have h2 : (if c1 = '*' then
                some (("<strong>".data ++ g ++ "</strong>".data, '*', w2) :
                  List Char × Char × List Char) else none) = some (r, c0, t) := h
            by_cases hc1 : c1 = '*'
            · subst hc1
              rw [if_pos rfl] at h2
              simp only [Option.some.injEq, Prod.mk.injEq] at h2
              obtain ⟨hr', hc', ht'⟩ := h2
              subst hr'
              subst hc'
              subst ht'
              have hu1 : InlineSafe ('*' :: v) := hs.tail_of_head (by decide) (by decide)
              have hv : InlineSafe v := hu1.tail_of_head (by decide) (by decide)
              obtain ⟨hdec, hgne, hgno, hgtw⟩ := splitAtFirst_eq hsp
              have hsplit := InlineSafe.split (d := '*') (by decide) hv
              have hg : InlineSafe g := by rw [hgtw]; exact hsplit.1
              have hdw : v.dropWhile (· ≠ '*') = '*' :: '*' :: w2 := by
                have h1 : g ++ v.dropWhile (· ≠ '*') = g ++ ('*' :: '*' :: w2) := by
                  conv_lhs => rw [hgtw]
                  rw [List.takeWhile_append_dropWhile]
                  exact hdec
                exact List.append_cancel_left h1
              have hw2 : InlineSafe w2 := by
                have h2 : InlineSafe ('*' :: '*' :: w2) := by rw [← hdw]; exact hsplit.2
                exact (h2.tail_of_head (by decide) (by decide)).tail_of_head
                  (by decide) (by decide)
              obtain ⟨hrs, hrd⟩ := template_spec (by decide) (by decide) strong_pair hg
              refine ⟨hrs, hw2, ?_, ?_⟩
              · rw [hdec]
                simp only [List.length_cons, List.length_append]
                omega
              · intro k
                rw [hrd k, diffK_cons_ne (by decide : ('*' : Char) ≠ '<') k,
                  diffK_cons_ne (by decide : ('*' : Char) ≠ '<') k, hdec,
                  diffK_append_inline hg k,
                  diffK_cons_ne (by decide : ('*' : Char) ≠ '<') k,
                  diffK_cons_ne (by decide : ('*' : Char) ≠ '<') k]
            · rw [if_neg hc1] at h2
              exact absurd h2 (by simp)
      · have hnone : matchStrongStar p (a :: b :: v) = none := by
          show (if a = '*' ∧ b = '*' then _ else none) = none
          rw [if_neg hab]
        rw [hnone] at h
        exact absurd h (by simp)

theorem subPass_strongStar {s : List Char} (hs : InlineSafe s) :
    InlineSafe (subPass matchStrongStar s) ∧
      ∀ k, diffK k (subPass matchStrongStar s) = diffK k s :=
  @scanSub_safe_diff matchStrongStar (fun c => decide (c = '*'))
    (fun _ _ _ hne => matchStrongStar_none (by simpa using hne))
    (by decide)
    (fun _ _ _ _ _ hm hs0 => matchStrongStar_spec hm hs0)
    s.length s le_rfl s.length le_rfl none hs

theorem matchStrongUnd_none {p : Option Char} {a : Char} {s : List Char} (h : a ≠ '_') :
    matchStrongUnd p (a :: s) = none := by
  cases s with
  | nil => rfl
  | cons b t =>
    show (if a = '_' ∧ b = '_' then _ else none) = none
    rw [if_neg (fun hab => h hab.1)]

theorem matchStrongUnd_spec {p : Option Char} {s0 r : List Char} {c0 : Char} {t : List Char}
    (h : matchStrongUnd p s0 = some (r, c0, t)) (hs : InlineSafe s0) :
    InlineSafe r ∧ InlineSafe t ∧ t.length < s0.length ∧
      ∀ k, diffK k r + diffK k t = diffK k s0 := by
  cases s0 with
  | nil => exact absurd h (by simp [matchStrongUnd])
  | cons a u =>
    cases u with
    | nil => exact absurd h (by simp [matchStrongUnd])
    | cons b v =>
      by_cases hab : a = '_' ∧ b = '_'
      · obtain ⟨ha, hb⟩ := hab
        subst ha
        subst hb
        have hred : matchStrongUnd p ('_' :: '_' :: v) = (match splitAtFirst '_' v with
            | some (g, w) =>
              match w with
              | c :: w2 => if c = '_' then
                  some ("<strong>".data ++ g ++ "</strong>".data, '_', w2) else none
              | [] => none
            | none => none) := by
          show (if ('_' : Char) = '_' ∧ ('_' : Char) = '_' then _ else none) = _
          simp
        rw [hred] at h
        cases hsp : splitAtFirst '_' v with
        | none => rw [hsp] at h; exact absurd h (by simp)
        | some gw =>
          obtain ⟨g, w⟩ := gw
          rw [hsp] at h
          cases w with
          | nil => exact absurd h (by simp)
          | cons c1 w2 =>
            have h2 : (if c1 = '_' then
                some (("<strong>".data ++ g ++ "</strong>".data, '_', w2) :
                  List Char × Char × List Char) else none) = some (r, c0, t) := h
            by_cases hc1 : c1 = '_'
            · subst hc1
              rw [if_pos rfl] at h2
              simp only [Option.some.injEq, Prod.mk.injEq] at h2
              obtain ⟨hr', hc', ht'⟩ := h2
              subst hr'
              subst hc'
              subst ht'
              have hu1 : InlineSafe ('_' :: v) := hs.tail_of_head (by decide) (by decide)
              have hv : InlineSafe v := hu1.tail_of_head (by decide) (by decide)
              obtain ⟨hdec, hgne, hgno, hgtw⟩ := splitAtFirst_eq hsp
              have hsplit := InlineSafe.split (d := '_') (by decide) hv
              have hg : InlineSafe g := by rw [hgtw]; exact hsplit.1
              have hdw : v.dropWhile (· ≠ '_') = '_' :: '_' :: w2 := by
                have h1 : g ++ v.dropWhile (· ≠ '_') = g ++ ('_' :: '_' :: w2) := by
                  conv_lhs => rw [hgtw]
                  rw [List.takeWhile_append_dropWhile]
                  exact hdec
                exact List.append_cancel_left h1
              have hw2 : InlineSafe w2 := by
                have h2 : InlineSafe ('_' :: '_' :: w2) := by rw [← hdw]; exact hsplit.2
                exact (h2.tail_of_head (by decide) (by decide)).tail_of_head
                  (by decide) (by decide)
              obtain ⟨hrs, hrd⟩ := template_spec (by decide) (by decide) strong_pair hg
              refine ⟨hrs, hw2, ?_, ?_⟩
              · rw [hdec]
                simp only [List.length_cons, List.length_append]
                omega
              · intro k
                rw [hrd k, diffK_cons_ne (by decide : ('_' : Char) ≠ '<') k,
                  diffK_cons_ne (by decide : ('_' : Char) ≠ '<') k, hdec,
                  diffK_append_inline hg k,
                  diffK_cons_ne (by decide : ('_' : Char) ≠ '<') k,
                  diffK_cons_ne (by decide : ('_' : Char) ≠ '<') k]
            · rw [if_neg hc1] at h2
              exact absurd h2 (by simp)
      · have hnone : matchStrongUnd p (a :: b :: v) = none := by
          show (if a = '_' ∧ b = '_' then _ else none) = none
          rw [if_neg hab]
        rw [hnone] at h
        exact absurd h (by simp)

theorem subPass_strongUnd {s : List Char} (hs : InlineSafe s) :
    InlineSafe (subPass matchStrongUnd s) ∧
      ∀ k, diffK k (subPass matchStrongUnd s) = diffK k s :=
  @scanSub_safe_diff matchStrongUnd (fun c => decide (c = '_'))
    (fun _ _ _ hne => matchStrongUnd_none (by simpa using hne))
    (by decide)
    (fun _ _ _ _ _ hm hs0 => matchStrongUnd_spec hm hs0)
    s.length s le_rfl s.length le_rfl none hs

theorem matchEmStar_none {p : Option Char} {a : Char} {s : List Char} (h : a ≠ '*') :
    matchEmStar p (a :: s) = none := by
  show (if a = '*' then _ else none) = none
  rw [if_neg h]

theorem matchEmStar_spec {p : Option Char} {s0 r : List Char} {c0 : Char} {t : List Char}
    (h : matchEmStar p s0 = some (r, c0, t)) (hs : InlineSafe s0) :
    InlineSafe r ∧ InlineSafe t ∧ t.length < s0.length ∧
      ∀ k, diffK k r + diffK k t = diffK k s0 := by
  cases s0 with
  | nil => exact absurd h (by simp [matchEmStar])
  | cons a u =>
    by_cases ha : a = '*'
    · subst ha
      have hred : matchEmStar p ('*' :: u) = (if p = some '*' then none
          else match splitAtFirst '*' u with
          | some (g, w) =>
            if w.head? = some '*' then none
            else some ("<em>".data ++ g ++ "</em>".data, '*', w)
          | none => none) := by
        show (if ('*' : Char) = '*' then _ else none) = _
        simp
      rw [hred] at h
      by_cases hp : p = some '*'
      · rw [if_pos hp] at h
        exact absurd h (by simp)
      · rw [if_neg hp] at h
        cases hsp : splitAtFirst '*' u with
        | none => rw [hsp] at h; exact absurd h (by simp)
        | some gw =>
          obtain ⟨g, w⟩ := gw
          rw [hsp] at h
          have h2 : (if w.head? = some '*' then none else
              some (("<em>".data ++ g ++ "</em>".data, '*', w) :
                List Char × Char × List Char)) = some (r, c0, t) := h
          by_cases hla : w.head? = some '*'
          · rw [if_pos hla] at h2
            exact absurd h2 (by simp)
          · rw [if_neg hla] at h2
            simp only [Option.some.injEq, Prod.mk.injEq] at h2
            obtain ⟨hr', hc', ht'⟩ := h2
            subst hr'
            subst hc'
            subst ht'
            have hu : InlineSafe u := hs.tail_of_head (by decide) (by decide)
            obtain ⟨hdec, hgne, hgno, hgtw⟩ := splitAtFirst_eq hsp
            have hsplit := InlineSafe.split (d := '*') (by decide) hu
            have hg : InlineSafe g := by rw [hgtw]; exact hsplit.1
            have hdw : u.dropWhile (· ≠ '*') = '*' :: w := by
              have h1 : g ++ u.dropWhile (· ≠ '*') = g ++ ('*' :: w) := by
                conv_lhs => rw [hgtw]
                rw [List.takeWhile_append_dropWhile]
                exact hdec
              exact List.append_cancel_left h1
            have hw : InlineSafe w := by
              have h2 : InlineSafe ('*' :: w) := by rw [← hdw]; exact hsplit.2
              exact h2.tail_of_head (by decide) (by decide)
            obtain ⟨hrs, hrd⟩ := template_spec (by decide) (by decide) em_pair hg
            refine ⟨hrs, hw, ?_, ?_⟩
            · rw [hdec]
              simp only [List.length_cons, List.length_append]
              omega
            · intro k
              rw [hrd k, hdec, consumed_diff (by decide) hg w k]
    · rw [matchEmStar_none ha] at h
      exact absurd h (by simp)

theorem subPass_emStar {s : List Char} (hs : InlineSafe s) :
    InlineSafe (subPass matchEmStar s) ∧ ∀ k, diffK k (subPass matchEmStar s) = diffK k s :=
  @scanSub_safe_diff matchEmStar (fun c => decide (c = '*'))
    (fun _ _ _ hne => matchEmStar_none (by simpa using hne))
    (by decide)
    (fun _ _ _ _ _ hm hs0 => matchEmStar_spec hm hs0)
    s.length s le_rfl s.length le_rfl none hs

theorem matchEmUnd_none {p : Option Char} {a : Char} {s : List Char} (h : a ≠ '_') :
    matchEmUnd p (a :: s) = none := by
  show (if a = '_' then _ else none) = none
  rw [if_neg h]

theorem matchEmUnd_spec {p : Option Char} {s0 r : List Char} {c0 : Char} {t : List Char}
    (h : matchEmUnd p s0 = some (r, c0, t)) (hs : InlineSafe s0) :
    InlineSafe r ∧ InlineSafe t ∧ t.length < s0.length ∧
      ∀ k, diffK k r + diffK k t = diffK k s0 := by
  cases s0 with
  | nil => exact absurd h (by simp [matchEmUnd])
  | cons a u =>
    by_cases ha : a = '_'
    · subst ha
      have hred : matchEmUnd p ('_' :: u) = (if p = some '_' then none
          else match splitAtFirst '_' u with
          | some (g, w) =>
            if w.head? = some '_' ∧ w.tail.head? = some ' ' then none
            else some ("<em>".data ++ g ++ "</em>".data, '_', w)
          | none => none) := by
        show (if ('_' : Char) = '_' then _ else none) = _
        simp
      rw [hred] at h
      by_cases hp : p = some '_'
      · rw [if_pos hp] at h
        exact absurd h (by simp)
      · rw [if_neg hp] at h
        cases hsp : splitAtFirst '_' u with
        | none => rw [hsp] at h; exact absurd h (by simp)
        | some gw =>
          obtain ⟨g, w⟩ := gw
          rw [hsp] at h
          have h2 : (if w.head? = some '_' ∧ w.tail.head? = some ' ' then none else
              some (("<em>".data ++ g ++ "</em>".data, '_', w) :
                List Char × Char × List Char)) = some (r, c0, t) := h
          by_cases hla : w.head? = some '_' ∧ w.tail.head? = some ' '
          · rw [if_pos hla] at h2
            exact absurd h2 (by simp)
          · rw [if_neg hla] at h2
            simp only [Option.some.injEq, Prod.mk.injEq] at h2
            obtain ⟨hr', hc', ht'⟩ := h2
            subst hr'
            subst hc'
            subst ht'
            have hu : InlineSafe u := hs.tail_of_head (by decide) (by decide)
            obtain ⟨hdec, hgne, hgno, hgtw⟩ := splitAtFirst_eq hsp
            have hsplit := InlineSafe.split (d := '_') (by decide) hu
            have hg : InlineSafe g := by rw [hgtw]; exact hsplit.1
            have hdw : u.dropWhile (· ≠ '_') = '_' :: w := by
              have h1 : g ++ u.dropWhile (· ≠ '_') = g ++ ('_' :: w) := by
                conv_lhs => rw [hgtw]
                rw [List.takeWhile_append_dropWhile]
                exact hdec
              exact List.append_cancel_left h1
            have hw : InlineSafe w := by
              have h2 : InlineSafe ('_' :: w) := by rw [← hdw]; exact hsplit.2
              exact h2.tail_of_head (by decide) (by decide)
            obtain ⟨hrs, hrd⟩ := template_spec (by decide) (by decide) em_pair hg
            refine ⟨hrs, hw, ?_, ?_⟩
            · rw [hdec]
              simp only [List.length_cons, List.length_append]
              omega
            · intro k
              rw [hrd k, hdec, consumed_diff (by decide) hg w k]
    · rw [matchEmUnd_none ha] at h
      exact absurd h (by simp)

theorem subPass_emUnd {s : List Char} (hs : InlineSafe s) :
    InlineSafe (subPass matchEmUnd s) ∧ ∀ k, diffK k (subPass matchEmUnd s) = diffK k s :=
  @scanSub_safe_diff matchEmUnd (fun c => decide (c = '_'))
    (fun _ _ _ hne => matchEmUnd_none (by simpa using hne))
    (by decide)
    (fun _ _ _ _ _ hm hs0 => matchEmUnd_spec hm hs0)
    s.length s le_rfl s.length le_rfl none hs

/-! ### The link pass (the first pass, over the angle-free escaped string) -/

theorem mem_escLt_ne_lt {a c : Char} (h : c ∈ escLt a) : c ≠ '<' := by
  unfold escLt at h
  by_cases ha : a = '<'
  · rw [if_pos ha] at h
    intro he
    subst he
    exact absurd h (by decide)
  · rw [if_neg ha] at h
    simp at h
    rw [h]
    exact ha

theorem stage2_no_lt (x : List Char) : ∀ c ∈ x.flatMap escLt, c ≠ '<' := by
  intro c hc
  rw [List.mem_flatMap] at hc
  obtain ⟨a, _, hca⟩ := hc
  exact mem_escLt_ne_lt hca

theorem mem_escGt {a c : Char} (h : c ∈ escGt a) : (c = a ∧ a ≠ '>') ∨ c ∈ "&gt;".data := by
  unfold escGt at h
  by_cases ha : a = '>'
  · rw [if_pos ha] at h
    exact Or.inr h
  · rw [if_neg ha] at h
    simp at h
    exact Or.inl ⟨h, ha⟩

theorem escapeHtml_no_angle (l : List Char) : ∀ c ∈ escapeHtml l, c ≠ '<' ∧ c ≠ '>' := by
  intro c hc
  unfold escapeHtml at hc
  rw [List.mem_flatMap] at hc
  obtain ⟨a, haM, hca⟩ := hc
  have ha_ne : a ≠ '<' := stage2_no_lt _ a haM
  rcases mem_escGt hca with ⟨he, hgt⟩ | hmem
  · exact ⟨by rw [he]; exact ha_ne, by rw [he]; exact hgt⟩
  · constructor <;> (intro hx; subst hx; exact absurd hmem (by decide))

theorem a_pair : ∀ k, diffK k "<a href=\"".data + diffK k "</a>".data = 0 := by
  intro k
  cases k <;> decide

theorem matchLink_none {p : Option Char} {a : Char} {s : List Char} (h : a ≠ '[') :
    matchLink p (a :: s) = none := by
  show (if a = '[' then _ else none) = none
  rw [if_neg h]

theorem matchLink_spec {p : Option Char} {s0 r : List Char} {c0 : Char} {t : List Char}
    (h : matchLink p s0 = some (r, c0, t)) (hall : ∀ c ∈ s0, c ≠ '<' ∧ c ≠ '>') :
    InlineSafe r ∧ (∀ c ∈ t, c ≠ '<' ∧ c ≠ '>') ∧ t.length < s0.length ∧
      ∀ k, diffK k r = 0 := by
  cases s0 with
  | nil => exact absurd h (by simp [matchLink])
  | cons a u =>
    by_cases ha : a = '['
    · subst ha
      have hred : matchLink p ('[' :: u) = (match splitAtFirst ']' u with
          | some (g1, v0) =>
            match v0 with
            | b :: v =>
              if b = '(' then
                match splitAtFirst ')' v with
                | some (g2, w) => some (linkRepl g1 g2, ')', w)
                | none => none
              else none
            | [] => none
          | none => none) := by
        show (if ('[' : Char) = '[' then _ else none) = _
        simp
      rw [hred] at h
      cases hsp1 : splitAtFirst ']' u with
      | none => rw [hsp1] at h; exact absurd h (by simp)
      | some gv =>
        obtain ⟨g1, v0⟩ := gv
        rw [hsp1] at h
        cases v0 with
        | nil => exact absurd h (by simp)
        | cons b v =>
          have h2 : (if b = '(' then (match splitAtFirst ')' v with
              | some (g2, w) => some ((linkRepl g1 g2, ')', w) :
                  List Char × Char × List Char)
              | none => none) else none) = some (r, c0, t) := h
          by_cases hb : b = '('
          · subst hb
            rw [if_pos rfl] at h2
            cases hsp2 : splitAtFirst ')' v with
            | none => rw [hsp2] at h2; exact absurd h2 (by simp)
            | some gw =>
              obtain ⟨g2, w⟩ := gw
              rw [hsp2] at h2
              simp only [Option.some.injEq, Prod.mk.injEq] at h2
              obtain ⟨hr', hc', ht'⟩ := h2
              subst hr'
              subst hc'
              subst ht'
              obtain ⟨hdec1, hg1ne, hg1no, _⟩ := splitAtFirst_eq hsp1
              obtain ⟨hdec2, hg2ne, hg2no, _⟩ := splitAtFirst_eq hsp2
              have hu : ∀ c ∈ u, c ≠ '<' ∧ c ≠ '>' := fun c hc =>
                hall c (List.mem_cons_of_mem _ hc)
              have hg1safe : ∀ c ∈ g1, c ≠ '<' ∧ c ≠ '>' := fun c hc =>
                hu c (by rw [hdec1]; exact List.mem_append_left _ hc)
              have hvsafe : ∀ c ∈ v, c ≠ '<' ∧ c ≠ '>' := fun c hc =>
                hu c (by
                  rw [hdec1]
                  exact List.mem_append_right _
                    (List.mem_cons_of_mem _ (List.mem_cons_of_mem _ hc)))
              have hwsafe : ∀ c ∈ w, c ≠ '<' ∧ c ≠ '>' := fun c hc =>
                hvsafe c (by
                  rw [hdec2]
                  exact List.mem_append_right _ (List.mem_cons_of_mem _ hc))
              have hg2safe : ∀ c ∈ g2, c ≠ '<' ∧ c ≠ '>' := fun c hc =>
                hvsafe c (by rw [hdec2]; exact List.mem_append_left _ hc)
              have hesc := escapeHtml_no_angle g2
              have s1 : InlineSafe ("<a href=\"".data ++ escapeHtml g2) :=
                TokSeq.append (TokSeq.single (by decide))
                  (TokSeq.of_all_safe (fun c hc => hesc c hc))
              have s2 : InlineSafe ("<a href=\"".data ++ escapeHtml g2 ++ "\">".data) :=
                TokSeq.append s1 (TokSeq.single (by decide))
              have s3 : InlineSafe ("<a href=\"".data ++ escapeHtml g2 ++ "\">".data ++ g1) :=
                TokSeq.append s2 (TokSeq.of_all_safe (fun c hc => hg1safe c hc))
              have hrsafe : InlineSafe (linkRepl g1 g2) :=
                TokSeq.append s3 (TokSeq.single (by decide))
              have hrd : ∀ k, diffK k (linkRepl g1 g2) = 0 := by
                intro k
                unfold linkRepl
                rw [diffK_append_inline s3 k, diffK_append_inline s2 k,
                  diffK_append_inline s1 k,
                  diffK_append_inline (TokSeq.single (by decide)) k]
                have e1 : diffK k (escapeHtml g2) = 0 :=
                  diffK_nolt (fun c hc => (hesc c hc).1) k
                have e2 : diffK k "\">".data = 0 := diffK_nolt (by decide) k
                have e3 : diffK k g1 = 0 := diffK_nolt (fun c hc => (hg1safe c hc).1) k
                have e4 := a_pair k
                omega
              refine ⟨hrsafe, hwsafe, ?_, hrd⟩
              rw [hdec2] at hdec1
              rw [hdec1]
              simp only [List.length_cons, List.length_append]
              omega
          · rw [if_neg hb] at h2
            exact absurd h2 (by simp)
    · rw [matchLink_none ha] at h
      exact absurd h (by simp)

theorem scanLink_ok : ∀ (n : Nat) (s : List Char), s.length ≤ n → ∀ f, s.length ≤ f →
    ∀ p, (∀ c ∈ s, c ≠ '<' ∧ c ≠ '>') →
    InlineSafe (scanSub matchLink f p s) ∧ ∀ k, diffK k (scanSub matchLink f p s) = 0 := by
  intro n
  induction n with
  | zero =>
    intro s hs f hf p hall
    have hnil : s = [] := List.length_eq_zero.mp (Nat.le_zero.mp hs)
    subst hnil
    cases f with
    | zero => exact ⟨TokSeq.nil, fun k => rfl⟩
    | succ f2 => exact ⟨TokSeq.nil, fun k => rfl⟩
  | succ n ih =>
    intro s hs f hf p hall
    cases s with
    | nil =>
      cases f with
      | zero => exact ⟨TokSeq.nil, fun k => rfl⟩
      | succ f2 => exact ⟨TokSeq.nil, fun k => rfl⟩
    | cons a s2 =>
      cases f with
      | zero => simp at hf
      | succ f2 =>
        cases hm : matchLink p (a :: s2) with
        | some rct =>
          obtain ⟨r, c, t⟩ := rct
          have hred : scanSub matchLink (f2 + 1) p (a :: s2) =
              r ++ scanSub matchLink f2 (some c) t := by
            simp [scanSub, hm]
          obtain ⟨hr, ht, hlen, hdiff⟩ := matchLink_spec hm hall
          have hlen2 : t.length ≤ n := by
            simp only [List.length_cons] at hs hlen
            omega
          have hfuel : t.length ≤ f2 := by
            simp only [List.length_cons] at hf hlen
            omega
          obtain ⟨hsc, hdc⟩ := ih t hlen2 f2 hfuel (some c) ht
          refine ⟨hred ▸ TokSeq.append hr hsc, ?_⟩
          intro k
          have e1 := hdc k
          have e2 := hdiff k
          rw [hred, diffK_append_inline hr k]
          omega
        | none =>
          have hred : scanSub matchLink (f2 + 1) p (a :: s2) =
              a :: scanSub matchLink f2 (some a) s2 := by
            simp [scanSub, hm]
          have haa := hall a (List.mem_cons_self a s2)
          have hs2 : ∀ c ∈ s2, c ≠ '<' ∧ c ≠ '>' := fun c hc =>
            hall c (List.mem_cons_of_mem a hc)
          have hlen2 : s2.length ≤ n := by simp only [List.length_cons] at hs; omega
          have hfuel : s2.length ≤ f2 := by simp only [List.length_cons] at hf; omega
          obtain ⟨hsc, hdc⟩ := ih s2 hlen2 f2 hfuel (some a) hs2
          refine ⟨hred ▸ TokSeq.ch haa hsc, ?_⟩
          intro k
          rw [hred, diffK_cons_ne haa.1 k, hdc k]

/-! ### The full inline renderer -/

theorem renderInline_ok (raw : List Char) :
    InlineSafe (renderInline raw) ∧ ∀ k, diffK k (renderInline raw) = 0 := by
  have h0 := escapeHtml_no_angle raw
  have h1 : InlineSafe (subPass matchLink (escapeHtml raw)) ∧
      ∀ k, diffK k (subPass matchLink (escapeHtml raw)) = 0 :=
    scanLink_ok (escapeHtml raw).length (escapeHtml raw) le_rfl
      (escapeHtml raw).length le_rfl none h0
  have h2 := subPass_code h1.1
  have h3 := subPass_strongStar h2.1
  have h4 := subPass_strongUnd h3.1
  have h5 := subPass_emStar h4.1
  have h6 := subPass_emUnd h5.1
  refine ⟨h6.1, ?_⟩
  intro k
  show diffK k (subPass matchEmUnd (subPass matchEmStar (subPass matchStrongUnd
    (subPass matchStrongStar (subPass matchCode (subPass matchLink (escapeHtml raw))))))) = 0
  rw [h6.2 k, h5.2 k, h4.2 k, h3.2 k, h2.2 k, h1.2 k]

/-- The rendered inline string never contains a stray angle bracket: it is an
interleaving of angle-free characters and whole renderer-emitted tokens. -/
theorem renderInline_safe (raw : List Char) : InlineSafe (renderInline raw) :=
  (renderInline_ok raw).1

/-- Per kind, the rendered inline string has as many opening as closing tags. -/
theorem renderInline_balanced (raw : List Char) (k : Kind) :
    countOcc (openL k) (renderInline raw) = countOcc (closeL k) (renderInline raw) := by
  have h := (renderInline_ok raw).2 k
  rw [diffK] at h
  omega

/-! ### Block-level bookkeeping -/

def b2z (b : Bool) : ℤ := if b then 1 else 0

/-- The number of tags of a kind opened by the scan but not yet closed, as a
function of the scan state. -/
def pend (k : Kind) (st : MDState) : ℤ :=
  match k with
  | .p => b2z st.in_para
  | .ul => b2z st.in_ul
  | .ol => b2z st.in_ol
  | .blockquote => b2z st.in_quote
  | .pre => b2z st.in_code
  | .code => b2z st.in_code
  | _ => 0

/-- The invariant actually maintained by the scan state: the four structural
contexts are mutually exclusive, and code mode excludes everything. -/
abbrev Inv (st : MDState) : Prop :=
  (st.in_code = true → st.in_ul = false ∧ st.in_ol = false ∧ st.in_para = false ∧
    st.in_quote = false) ∧
  ¬(st.in_ul = true ∧ st.in_ol = true) ∧
  (st.in_quote = true → st.in_ul = false ∧ st.in_ol = false)

theorem diffK_joinNl : ∀ ps : List (List Char), (∀ p ∈ ps, BlockSafe p) → ∀ k,
    diffK k (joinNl ps) = (ps.map (diffK k)).sum := by
  intro ps
  induction ps with
  | nil => intro _ k; rfl
  | cons p qs ih =>
    intro hps k
    cases qs with
    | nil => simp [joinNl]
    | cons q qs2 =>
      rw [show joinNl (p :: q :: qs2) = p ++ '\n' :: joinNl (q :: qs2) from rfl,
        diffK_append_block (hps p (List.mem_cons_self _ _)) k,
        diffK_cons_ne (by decide) k, ih (fun r hr => hps r (List.mem_cons_of_mem _ hr)) k]
      simp

/-! ### Safety of the emitted pieces -/

theorem mem_ite_nil {b : Prop} [Decidable b] {x p : List Char}
    (hp : p ∈ (if b then [x] else [])) : p = x := by
  by_cases hb : b
  · rw [if_pos hb] at hp
    simpa using hp
  · rw [if_neg hb] at hp
    simp at hp

theorem closeAllP_safe (st : MDState) : ∀ p ∈ closeAllP st, BlockSafe p := by
  intro p hp
  unfold closeAllP closeParaP closeListsP closeQuoteP at hp
  rcases List.mem_append.mp hp with h1 | h2
  · rcases List.mem_append.mp h1 with h3 | h4
    · rw [mem_ite_nil h3]
      exact TokSeq.single (by decide)
    · rcases List.mem_append.mp h4 with h5 | h6
      · rw [mem_ite_nil h5]
        exact TokSeq.single (by decide)
      · rw [mem_ite_nil h6]
        exact TokSeq.single (by decide)
  · rw [mem_ite_nil h2]
    exact TokSeq.single (by decide)

theorem lit2_safe {x y p : List Char} (hx : x ∈ allToks) (hy : y ∈ allToks)
    (hp : p = x ++ y) : BlockSafe p := by
  rw [hp]
  exact TokSeq.append (TokSeq.single hx) (TokSeq.single hy)

theorem inlinePiece_safe (x : List Char) : BlockSafe (renderInline x ++ " ".data) :=
  TokSeq.append (renderInline_safe x).blockSafe (TokSeq.of_all_safe (by decide))

theorem liPiece_safe (x : List Char) :
    BlockSafe ("<li>".data ++ renderInline x ++ "</li>".data) :=
  TokSeq.append (TokSeq.append (TokSeq.single (by decide)) (renderInline_safe x).blockSafe)
    (TokSeq.single (by decide))

theorem headingPiece_eq (n : Nat) (text : List Char) :
    headingPiece n text = ("<h".data ++ (Nat.repr n).data ++ ">".data)
      ++ (renderInline text ++ ("</h".data ++ (Nat.repr n).data ++ ">".data)) := by
  unfold headingPiece
  simp [List.append_assoc]

theorem headingPiece_safe {n : Nat} (h1 : 1 ≤ n) (h6 : n ≤ 6) (text : List Char) :
    BlockSafe (headingPiece n text) := by
  rw [headingPiece_eq]
  interval_cases n <;>
    exact TokSeq.append (TokSeq.single (by decide))
      (TokSeq.append (renderInline_safe text).blockSafe (TokSeq.single (by decide)))

theorem headingPiece_diff {n : Nat} (h1 : 1 ≤ n) (h6 : n ≤ 6) (text : List Char) (k : Kind) :
    diffK k (headingPiece n text) = 0 := by
  rw [headingPiece_eq]
  interval_cases n <;>
  · rw [diffK_append_block (TokSeq.single (by decide)) k,
      diffK_append_block (renderInline_safe text).blockSafe k, (renderInline_ok text).2 k]
    cases k <;> decide

theorem thWrap_safe (cells : List (List Char)) :
    BlockSafe ((cells.map (fun h => "<th>".data ++ renderInline h ++ "</th>".data)).flatten) := by
  induction cells with
  | nil => exact TokSeq.nil
  | cons c cs ih =>
    simp only [List.map_cons, List.flatten_cons]
    exact TokSeq.append (TokSeq.append (TokSeq.append (TokSeq.single (by decide))
      (renderInline_safe c).blockSafe) (TokSeq.single (by decide))) ih

theorem tdWrap_safe (cells : List (List Char)) :
    BlockSafe ((cells.map (fun c => "<td>".data ++ renderInline c ++ "</td>".data)).flatten) := by
  induction cells with
  | nil => exact TokSeq.nil
  | cons c cs ih =>
    simp only [List.map_cons, List.flatten_cons]
    exact TokSeq.append (TokSeq.append (TokSeq.append (TokSeq.single (by decide))
      (renderInline_safe c).blockSafe) (TokSeq.single (by decide))) ih

theorem tableHeadPiece_safe (cells : List (List Char)) : BlockSafe (tableHeadPiece cells) := by
  unfold tableHeadPiece
  refine TokSeq.append (TokSeq.append ?_ (thWrap_safe cells)) ?_
  · exact lit2_safe (x := "<thead>".data) (y := "<tr>".data) (by decide) (by decide) (by decide)
  · exact lit2_safe (x := "</tr>".data) (y := "</thead>".data) (by decide) (by decide) (by decide)

theorem tableRowPiece_safe (r : List Char) : BlockSafe (tableRowPiece r) := by
  unfold tableRowPiece
  exact TokSeq.append (TokSeq.append (TokSeq.single (by decide)) (tdWrap_safe (parseCellsL r)))
    (TokSeq.single (by decide))

theorem escapePiece_safe (raw : List Char) : BlockSafe (escapeHtml raw) :=
  TokSeq.of_all_safe (fun c hc => (escapeHtml_no_angle raw c hc).1)

theorem tablePieces_safe (line : List Char) (rows : List (List Char)) :
    ∀ p ∈ tablePieces line rows, BlockSafe p := by
  intro p hp
  unfold tablePieces at hp
  rcases List.mem_append.mp hp with h1 | h2
  · rcases List.mem_append.mp h1 with h3 | h4
    · simp only [List.mem_cons, List.not_mem_nil, or_false] at h3
      rcases h3 with h | h | h
      · rw [h]; exact TokSeq.single (by decide)
      · rw [h]; exact tableHeadPiece_safe _
      · rw [h]; exact TokSeq.single (by decide)
    · rw [List.mem_map] at h4
      obtain ⟨r, _, hr⟩ := h4
      rw [← hr]
      exact tableRowPiece_safe r
  · simp only [List.mem_cons, List.not_mem_nil, or_false] at h2
    rcases h2 with h | h
    · rw [h]; exact TokSeq.single (by decide)
    · rw [h]; exact TokSeq.single (by decide)

theorem quotePieces_safe (st : MDState) (qt : List Char) :
    ∀ p ∈ quotePieces st qt, BlockSafe p := by
  intro p hp
  unfold quotePieces at hp
  rcases List.mem_append.mp hp with h1 | h2
  · rcases List.mem_append.mp h1 with h3 | h4
    · by_cases hq : ¬st.in_quote
      · rw [if_pos hq] at h3
        rcases List.mem_append.mp h3 with h5 | h6
        · rcases List.mem_append.mp h5 with h7 | h8
          · have := closeAllP_safe st p
            unfold closeAllP at this
            exact this (List.mem_append_left _ (List.mem_append_left _ h7))
          · have := closeAllP_safe st p
            unfold closeAllP at this
            exact this (List.mem_append_left _ (List.mem_append_right _ h8))
        · rw [show p = "<blockquote>".data by simpa using h6]
          exact TokSeq.single (by decide)
      · rw [if_neg hq] at h3
        simp at h3
    · rw [mem_ite_nil h4]
      exact TokSeq.single (by decide)
  · rw [show p = renderInline qt ++ " ".data by simpa using h2]
    exact inlinePiece_safe qt

theorem ulPieces_safe (st1 : MDState) (txt : List Char) :
    ∀ p ∈ ulPieces st1 txt, BlockSafe p := by
  intro p hp
  unfold ulPieces at hp
  rcases List.mem_append.mp hp with h1 | h2
  · by_cases hu : ¬st1.in_ul
    · rw [if_pos hu] at h1
      rcases List.mem_append.mp h1 with h3 | h4
      · rcases List.mem_append.mp h3 with h5 | h6
        · unfold closeParaP at h5
          rw [mem_ite_nil h5]
          exact TokSeq.single (by decide)
        · rw [mem_ite_nil h6]
          exact TokSeq.single (by decide)
      · rw [show p = "<ul>".data by simpa using h4]
        exact TokSeq.single (by decide)
    · rw [if_neg hu] at h1
      simp at h1
  · rw [show p = "<li>".data ++ renderInline txt ++ "</li>".data by simpa using h2]
    exact liPiece_safe txt

theorem olPieces_safe (st1 : MDState) (txt : List Char) :
    ∀ p ∈ olPieces st1 txt, BlockSafe p := by
  intro p hp
  unfold olPieces at hp
  rcases List.mem_append.mp hp with h1 | h2
  · by_cases hu : ¬st1.in_ol
    · rw [if_pos hu] at h1
      rcases List.mem_append.mp h1 with h3 | h4
      · rcases List.mem_append.mp h3 with h5 | h6
        · unfold closeParaP at h5
          rw [mem_ite_nil h5]
          exact TokSeq.single (by decide)
        · rw [mem_ite_nil h6]
          exact TokSeq.single (by decide)
      · rw [show p = "<ol>".data by simpa using h4]
        exact TokSeq.single (by decide)
    · rw [if_neg hu] at h1
      simp at h1
  · rw [show p = "<li>".data ++ renderInline txt ++ "</li>".data by simpa using h2]
    exact liPiece_safe txt

theorem plainPieces_safe (st1 : MDState) (line : List Char) :
    ∀ p ∈ plainPieces st1 line, BlockSafe p := by
  intro p hp
  unfold plainPieces at hp
  rcases List.mem_append.mp hp with h1 | h2
  · rw [mem_ite_nil h1]
    exact TokSeq.single (by decide)
  · rw [show p = renderInline line ++ " ".data by simpa using h2]
    exact inlinePiece_safe line

theorem closeQuoteP_safe (st : MDState) : ∀ p ∈ closeQuoteP st, BlockSafe p := by
  intro p hp
  unfold closeQuoteP at hp
  rw [mem_ite_nil hp]
  exact TokSeq.single (by decide)

/-! ### Per-kind differences of the emitted pieces -/

theorem inlinePiece_diff (x : List Char) (k : Kind) :
    diffK k (renderInline x ++ " ".data) = 0 := by
  rw [diffK_append_block (renderInline_safe x).blockSafe k, (renderInline_ok x).2 k,
    diffK_nolt (by decide) k]
  omega

theorem liPiece_diff (x : List Char) (k : Kind) :
    diffK k ("<li>".data ++ renderInline x ++ "</li>".data) = 0 := by
  rw [diffK_append_block (TokSeq.append (TokSeq.single (by decide))
      (renderInline_safe x).blockSafe) k,
    diffK_append_block (TokSeq.single (by decide)) k, (renderInline_ok x).2 k]
  cases k <;> decide

theorem thWrap_diff (cells : List (List Char)) (k : Kind) :
    diffK k ((cells.map (fun h => "<th>".data ++ renderInline h ++ "</th>".data)).flatten)
      = 0 := by
  induction cells with
  | nil => simp [diffK, countOcc]
  | cons c cs ih =>
    simp only [List.map_cons, List.flatten_cons]
    rw [diffK_append_block (TokSeq.append (TokSeq.append (TokSeq.single (by decide))
        (renderInline_safe c).blockSafe) (TokSeq.single (by decide))) k, ih,
      diffK_append_block (TokSeq.append (TokSeq.single (by decide))
        (renderInline_safe c).blockSafe) k,
      diffK_append_block (TokSeq.single (by decide)) k, (renderInline_ok c).2 k]
    cases k <;> decide

theorem tdWrap_diff (cells : List (List Char)) (k : Kind) :
    diffK k ((cells.map (fun c => "<td>".data ++ renderInline c ++ "</td>".data)).flatten)
      = 0 := by
  induction cells with
  | nil => simp [diffK, countOcc]
  | cons c cs ih =>
    simp only [List.map_cons, List.flatten_cons]
    rw [diffK_append_block (TokSeq.append (TokSeq.append (TokSeq.single (by decide))
        (renderInline_safe c).blockSafe) (TokSeq.single (by decide))) k, ih,
      diffK_append_block (TokSeq.append (TokSeq.single (by decide))
        (renderInline_safe c).blockSafe) k,
      diffK_append_block (TokSeq.single (by decide)) k, (renderInline_ok c).2 k]
    cases k <;> decide

theorem tableHeadPiece_diff (cells : List (List Char)) (k : Kind) :
    diffK k (tableHeadPiece cells) = 0 := by
  have hs1 : BlockSafe "<thead><tr>".data :=
    lit2_safe (x := "<thead>".data) (y := "<tr>".data) (by decide) (by decide) (by decide)
  unfold tableHeadPiece
  rw [diffK_append_block (TokSeq.append hs1 (thWrap_safe cells)) k,
    diffK_append_block hs1 k, thWrap_diff cells k]
  cases k <;> decide

theorem tableRowPiece_diff (r : List Char) (k : Kind) : diffK k (tableRowPiece r) = 0 := by
  unfold tableRowPiece
  rw [diffK_append_block (TokSeq.append (TokSeq.single (by decide)) (tdWrap_safe _)) k,
    diffK_append_block (TokSeq.single (by decide)) k, tdWrap_diff _ k]
  cases k <;> decide

theorem rowsMap_diff (rows : List (List Char)) (k : Kind) :
    ((rows.map tableRowPiece).map (diffK k)).sum = 0 := by
  induction rows with
  | nil => rfl
  | cons r rs ih =>
    simp only [List.map_cons, List.sum_cons]
    rw [tableRowPiece_diff r k, ih]
    omega

theorem tablePieces_diff (line : List Char) (rows : List (List Char)) (k : Kind) :
    ((tablePieces line rows).map (diffK k)).sum = 0 := by
  unfold tablePieces
  rw [List.map_append, List.map_append, List.sum_append, List.sum_append, rowsMap_diff rows k]
  simp only [List.map_cons, List.map_nil, List.sum_cons, List.sum_nil]
  rw [tableHeadPiece_diff (parseCellsL line) k]
  cases k <;> decide

/-! ### Per-branch contributions to the pending-tag account -/

theorem closeAllP_diff (st : MDState) (k : Kind) :
    ((closeAllP st).map (diffK k)).sum = pend k (clearedState st) - pend k st := by
  rcases st with ⟨u, o, pa, q, cd⟩
  cases u <;> cases o <;> cases pa <;> cases q <;> cases cd <;> cases k <;> decide

theorem fence_contrib (st : MDState) (h : st.in_code = false) (k : Kind) :
    ((closeAllP st ++ ["<pre><code>".data]).map (diffK k)).sum =
      pend k { clearedState st with in_code := true } - pend k st := by
  rcases st with ⟨u, o, pa, q, cd⟩
  cases cd
  · cases u <;> cases o <;> cases pa <;> cases q <;> cases k <;> decide
  · simp at h

theorem codeClose_contrib (st : MDState) (h : st.in_code = true) (k : Kind) :
    ((["</code></pre>".data] : List (List Char)).map (diffK k)).sum =
      pend k { st with in_code := false } - pend k st := by
  rcases st with ⟨u, o, pa, q, cd⟩
  cases cd
  · simp at h
  · cases u <;> cases o <;> cases pa <;> cases q <;> cases k <;> decide

theorem escapePiece_diff (raw : List Char) (k : Kind) : diffK k (escapeHtml raw) = 0 :=
  diffK_nolt (fun c hc => (escapeHtml_no_angle raw c hc).1) k

theorem table_contrib (st : MDState) (line : List Char) (rows : List (List Char)) (k : Kind) :
    ((closeAllP st ++ tablePieces line rows).map (diffK k)).sum =
      pend k (clearedState st) - pend k st := by
  rw [List.map_append, List.sum_append, tablePieces_diff line rows k, closeAllP_diff st k]
  omega

theorem hr_contrib (st : MDState) (k : Kind) :
    ((closeAllP st ++ ["<hr/>".data]).map (diffK k)).sum =
      pend k (clearedState st) - pend k st := by
  rw [List.map_append, List.sum_append, closeAllP_diff st k]
  have h1 : diffK k "<hr/>".data = 0 := by cases k <;> decide
  simp [h1]

theorem heading_contrib (st : MDState) {n : Nat} (h1 : 1 ≤ n) (h6 : n ≤ 6)
    (text : List Char) (k : Kind) :
    ((closeAllP st ++ [headingPiece n text]).map (diffK k)).sum =
      pend k (clearedState st) - pend k st := by
  rw [List.map_append, List.sum_append, closeAllP_diff st k]
  simp [headingPiece_diff h1 h6 text k]

theorem quote_contrib (st : MDState) (qt : List Char) (k : Kind) :
    ((quotePieces st qt).map (diffK k)).sum = pend k (quoteState st) - pend k st := by
  unfold quotePieces
  rw [List.map_append, List.sum_append,
    show ([renderInline qt ++ " ".data].map (diffK k)).sum
      = diffK k (renderInline qt ++ " ".data) + 0 from rfl,
    inlinePiece_diff qt k]
  rcases st with ⟨u, o, pa, q, cd⟩
  cases u <;> cases o <;> cases pa <;> cases q <;> cases cd <;> cases k <;> decide

theorem ul_contrib (st : MDState) (txt : List Char) (k : Kind) :
    ((closeQuoteP st ++ ulPieces { st with in_quote := false } txt).map (diffK k)).sum =
      pend k (ulState { st with in_quote := false }) - pend k st := by
  rw [List.map_append, List.sum_append]
  unfold ulPieces
  rw [List.map_append, List.sum_append,
    show (["<li>".data ++ renderInline txt ++ "</li>".data].map (diffK k)).sum
      = diffK k ("<li>".data ++ renderInline txt ++ "</li>".data) + 0 from rfl,
    liPiece_diff txt k]
  rcases st with ⟨u, o, pa, q, cd⟩
  cases u <;> cases o <;> cases pa <;> cases q <;> cases cd <;> cases k <;> decide

theorem ol_contrib (st : MDState) (txt : List Char) (k : Kind) :
    ((closeQuoteP st ++ olPieces { st with in_quote := false } txt).map (diffK k)).sum =
      pend k (olState { st with in_quote := false }) - pend k st := by
  rw [List.map_append, List.sum_append]
  unfold olPieces
  rw [List.map_append, List.sum_append,
    show (["<li>".data ++ renderInline txt ++ "</li>".data].map (diffK k)).sum
      = diffK k ("<li>".data ++ renderInline txt ++ "</li>".data) + 0 from rfl,
    liPiece_diff txt k]
  rcases st with ⟨u, o, pa, q, cd⟩
  cases u <;> cases o <;> cases pa <;> cases q <;> cases cd <;> cases k <;> decide

theorem plain_contrib (st : MDState) (line : List Char) (k : Kind) :
    ((closeQuoteP st ++ plainPieces { st with in_quote := false } line).map (diffK k)).sum =
      pend k (plainState { st with in_quote := false }) - pend k st := by
  rw [List.map_append, List.sum_append]
  unfold plainPieces
  rw [List.map_append, List.sum_append,
    show ([renderInline line ++ " ".data].map (diffK k)).sum
      = diffK k (renderInline line ++ " ".data) + 0 from rfl,
    inlinePiece_diff line k]
  rcases st with ⟨u, o, pa, q, cd⟩
  cases u <;> cases o <;> cases pa <;> cases q <;> cases cd <;> cases k <;> decide

/-! ### The one-line step of the scanning loop -/

theorem length_dropWhile_le' (p : List Char → Bool) (l : List (List Char)) :
    (l.dropWhile p).length ≤ l.length := by
  induction l with
  | nil => exact le_rfl
  | cons a t ih =>
    rw [List.dropWhile_cons]
    by_cases hp : p a = true
    · rw [if_pos hp]
      exact Nat.le_succ_of_le ih
    · rw [if_neg hp]

theorem headMatch_bounds {line : List Char} {n : Nat} {text : List Char}
    (h : headMatch line = some (n, text)) : 1 ≤ n ∧ n ≤ 6 := by
  unfold headMatch at h
  by_cases hc : 1 ≤ (line.takeWhile (· = '#')).length ∧ (line.takeWhile (· = '#')).length ≤ 6
  · rw [if_pos hc] at h
    cases hh : (line.dropWhile (· = '#')).head? with
    | none => rw [hh] at h; exact absurd h (by simp)
    | some c =>
      rw [hh] at h
      have h2 : (if isWs c = true then
          some ((line.takeWhile (· = '#')).length,
            lstripWs (line.dropWhile (· = '#'))) else none) = some (n, text) := h
      by_cases hw : isWs c = true
      · rw [if_pos hw] at h2
        simp only [Option.some.injEq, Prod.mk.injEq] at h2
        obtain ⟨hn, _⟩ := h2
        rw [← hn]
        exact hc
      · rw [if_neg hw] at h2
        exact absurd h2 (by simp)
  · rw [if_neg hc] at h
    exact absurd h (by simp)

theorem mdLoopF_step (st : MDState) (raw : List Char) (rest : List (List Char)) :
    ∃ (ps : List (List Char)) (st2 : MDState) (rest2 : List (List Char)),
      (∀ f : Nat, mdLoopF (f + 1) st (raw :: rest) = stepCons st ps (mdLoopF f st2 rest2)) ∧
      rest2.length ≤ rest.length ∧ (∀ p ∈ ps, BlockSafe p) ∧
      (∀ k, (ps.map (diffK k)).sum = pend k st2 - pend k st) ∧ (Inv st → Inv st2) := by
  by_cases c1 : (!st.in_code && isFenceStart (rstripWs (rstripNl raw))) = true
  · have hcode : st.in_code = false := by
      cases hx : st.in_code
      · rfl
      · rw [hx] at c1
        exact absurd c1 (by simp)
    refine ⟨closeAllP st ++ ["<pre><code>".data], { clearedState st with in_code := true },
      rest, ?_, le_rfl, ?_, fence_contrib st hcode, ?_⟩
    · intro f; simp only [mdLoopF]
      rw [if_pos c1]
    · intro p hp
      rcases List.mem_append.mp hp with h | h
      · exact closeAllP_safe st p h
      · rw [show p = "<pre><code>".data by simpa using h]
        exact lit2_safe (x := "<pre>".data) (y := "<code>".data) (by decide) (by decide)
          (by decide)
    · intro _
      rcases st with ⟨u, o, pa, q, cd⟩
      exact (by decide : Inv ⟨false, false, false, false, true⟩)
  · by_cases c2 : st.in_code = true
    · by_cases c2b : rstripWs (rstripNl raw) = "```".data
      · refine ⟨["</code></pre>".data], { st with in_code := false }, rest, ?_, le_rfl, ?_,
          codeClose_contrib st c2, ?_⟩
        · intro f; simp only [mdLoopF]
          rw [if_neg c1, if_pos c2, if_pos c2b]
        · intro p hp
          rw [show p = "</code></pre>".data by simpa using hp]
          exact lit2_safe (x := "</code>".data) (y := "</pre>".data) (by decide) (by decide)
            (by decide)
        · intro hI
          rcases st with ⟨u, o, pa, q, cd⟩
          cases u <;> cases o <;> cases pa <;> cases q <;> cases cd <;> revert hI <;> decide
      · refine ⟨[escapeHtml raw], st, rest, ?_, le_rfl, ?_, ?_, fun h => h⟩
        · intro f; simp only [mdLoopF]
          rw [if_neg c1, if_pos c2, if_neg c2b]
        · intro p hp
          rw [show p = escapeHtml raw by simpa using hp]
          exact escapePiece_safe raw
        · intro k
          show diffK k (escapeHtml raw) + 0 = pend k st - pend k st
          rw [escapePiece_diff raw k]
          omega
    · by_cases c3 : isBlankLine (rstripWs (rstripNl raw)) = true
      · refine ⟨closeAllP st, clearedState st, rest, ?_, le_rfl, closeAllP_safe st,
          fun k => closeAllP_diff st k, ?_⟩
        · intro f; simp only [mdLoopF]
          rw [if_neg c1, if_neg c2, if_pos c3]
        · intro _
          rcases st with ⟨u, o, pa, q, cd⟩
          cases u <;> cases o <;> cases pa <;> cases q <;> cases cd <;> exact (by decide)
      · by_cases c4 : tableCond (rstripWs (rstripNl raw)) rest = true
        · refine ⟨closeAllP st
              ++ tablePieces (rstripWs (rstripNl raw)) (rest.tail.takeWhile isRowLine),
            clearedState st, rest.tail.dropWhile isRowLine, ?_, ?_, ?_,
            table_contrib st _ _, ?_⟩
          · intro f; simp only [mdLoopF]
            rw [if_neg c1, if_neg c2, if_neg c3, if_pos c4]
          · calc (rest.tail.dropWhile isRowLine).length
                ≤ rest.tail.length := length_dropWhile_le' _ _
              _ ≤ rest.length := by cases rest <;> simp
          · intro p hp
            rcases List.mem_append.mp hp with h | h
            · exact closeAllP_safe st p h
            · exact tablePieces_safe _ _ p h
          · intro _
            rcases st with ⟨u, o, pa, q, cd⟩
            cases u <;> cases o <;> cases pa <;> cases q <;> cases cd <;> exact (by decide)
        · by_cases c5 : isHrLine (rstripWs (rstripNl raw)) = true
          · refine ⟨closeAllP st ++ ["<hr/>".data], clearedState st, rest, ?_, le_rfl, ?_,
              hr_contrib st, ?_⟩
            · intro f; simp only [mdLoopF]
              rw [if_neg c1, if_neg c2, if_neg c3, if_neg c4, if_pos c5]
            · intro p hp
              rcases List.mem_append.mp hp with h | h
              · exact closeAllP_safe st p h
              · rw [show p = "<hr/>".data by simpa using h]
                exact TokSeq.single (by decide)
            · intro _
              rcases st with ⟨u, o, pa, q, cd⟩
              cases u <;> cases o <;> cases pa <;> cases q <;> cases cd <;> exact (by decide)
          · cases hhm : headMatch (rstripWs (rstripNl raw)) with
            | some nt =>
              obtain ⟨n, text⟩ := nt
              obtain ⟨hn1, hn6⟩ := headMatch_bounds hhm
              refine ⟨closeAllP st ++ [headingPiece n text], clearedState st, rest, ?_,
                le_rfl, ?_, heading_contrib st hn1 hn6 text, ?_⟩
              · intro f; simp only [mdLoopF]
                rw [if_neg c1, if_neg c2, if_neg c3, if_neg c4, if_neg c5, hhm]
              · intro p hp
                rcases List.mem_append.mp hp with h | h
                · exact closeAllP_safe st p h
                · rw [show p = headingPiece n text by simpa using h]
                  exact headingPiece_safe hn1 hn6 text
              · intro _
                rcases st with ⟨u, o, pa, q, cd⟩
                cases u <;> cases o <;> cases pa <;> cases q <;> cases cd <;> exact (by decide)
            | none =>
              by_cases c6 : (rstripWs (rstripNl raw)).head? = some '>'
              · refine ⟨quotePieces st (lstripWs (rstripWs (rstripNl raw)).tail),
                  quoteState st, rest, ?_, le_rfl, quotePieces_safe st _,
                  quote_contrib st _, ?_⟩
                · intro f; simp only [mdLoopF]
                  rw [if_neg c1, if_neg c2, if_neg c3, if_neg c4, if_neg c5, hhm, if_pos c6]
                · intro hI
                  have hcd : st.in_code = false := by simpa using c2
                  rcases st with ⟨u, o, pa, q, cd⟩
                  subst hcd
                  cases u <;> cases o <;> cases pa <;> cases q <;> revert hI <;> decide
              · cases hul : ulMatch (rstripWs (rstripNl raw)) with
                | some txt =>
                  refine ⟨closeQuoteP st ++ ulPieces { st with in_quote := false } txt,
                    ulState { st with in_quote := false }, rest, ?_, le_rfl, ?_,
                    ul_contrib st txt, ?_⟩
                  · intro f; simp only [mdLoopF]
                    rw [if_neg c1, if_neg c2, if_neg c3, if_neg c4, if_neg c5, hhm,
                      if_neg c6, hul]
                  · intro p hp
                    rcases List.mem_append.mp hp with h | h
                    · exact closeQuoteP_safe st p h
                    · exact ulPieces_safe _ txt p h
                  · intro hI
                    have hcd : st.in_code = false := by simpa using c2
                    rcases st with ⟨u, o, pa, q, cd⟩
                    subst hcd
                    cases u <;> cases o <;> cases pa <;> cases q <;> revert hI <;> decide
                | none =>
                  cases hol : olMatch (rstripWs (rstripNl raw)) with
                  | some txt =>
                    refine ⟨closeQuoteP st ++ olPieces { st with in_quote := false } txt,
                      olState { st with in_quote := false }, rest, ?_, le_rfl, ?_,
                      ol_contrib st txt, ?_⟩
                    · intro f; simp only [mdLoopF]
                      rw [if_neg c1, if_neg c2, if_neg c3, if_neg c4, if_neg c5, hhm,
                        if_neg c6, hul, hol]
                    · intro p hp
                      rcases List.mem_append.mp hp with h | h
                      · exact closeQuoteP_safe st p h
                      · exact olPieces_safe _ txt p h
                    · intro hI
                      have hcd : st.in_code = false := by simpa using c2
                      rcases st with ⟨u, o, pa, q, cd⟩
                      subst hcd
                      cases u <;> cases o <;> cases pa <;> cases q <;> revert hI <;> decide
                  | none =>
                    refine ⟨closeQuoteP st
                        ++ plainPieces { st with in_quote := false }
                          (rstripWs (rstripNl raw)),
                      plainState { st with in_quote := false }, rest, ?_, le_rfl, ?_,
                      plain_contrib st _, ?_⟩
                    · intro f; simp only [mdLoopF]
                      rw [if_neg c1, if_neg c2, if_neg c3, if_neg c4, if_neg c5, hhm,
                        if_neg c6, hul, hol]
                    · intro p hp
                      rcases List.mem_append.mp hp with h | h
                      · exact closeQuoteP_safe st p h
                      · exact plainPieces_safe _ _ p h
                    · intro hI
                      have hcd : st.in_code = false := by simpa using c2
                      rcases st with ⟨u, o, pa, q, cd⟩
                      subst hcd
                      cases u <;> cases o <;> cases pa <;> cases q <;> revert hI <;> decide

/-! ### Master inductions over the line scan -/

theorem mdLoopF_safe (f : Nat) (st : MDState) (lines : List (List Char)) :
    ∀ p ∈ (mdLoopF f st lines).pieces, BlockSafe p := by
  induction f generalizing st lines with
  | zero => intro p hp; exact closeAllP_safe st p hp
  | succ f ih =>
    cases lines with
    | nil => intro p hp; exact closeAllP_safe st p hp
    | cons raw rest =>
      obtain ⟨ps, st2, rest2, heq, _, hsafe, _, _⟩ := mdLoopF_step st raw rest
      rw [heq f]
      intro p hp
      have hp2 : p ∈ ps ++ (mdLoopF f st2 rest2).pieces := hp
      rcases List.mem_append.mp hp2 with h | h
      · exact hsafe p h
      · exact ih st2 rest2 p h

theorem mdLoopF_diff (f : Nat) (st : MDState) (lines : List (List Char)) (k : Kind) :
    (((mdLoopF f st lines).pieces).map (diffK k)).sum
      = pend k (mdLoopF f st lines).final - pend k st := by
  induction f generalizing st lines with
  | zero =>
    show ((closeAllP st).map (diffK k)).sum = pend k (clearedState st) - pend k st
    exact closeAllP_diff st k
  | succ f ih =>
    cases lines with
    | nil =>
      show ((closeAllP st).map (diffK k)).sum = pend k (clearedState st) - pend k st
      exact closeAllP_diff st k
    | cons raw rest =>
      obtain ⟨ps, st2, rest2, heq, _, _, hdiff, _⟩ := mdLoopF_step st raw rest
      rw [heq f]
      show ((ps ++ (mdLoopF f st2 rest2).pieces).map (diffK k)).sum
        = pend k (mdLoopF f st2 rest2).final - pend k st
      rw [List.map_append, List.sum_append, hdiff k, ih st2 rest2]
      ring

theorem mdLoopF_inv (f : Nat) (st : MDState) (lines : List (List Char)) (hI : Inv st) :
    ∀ s ∈ (mdLoopF f st lines).trace, Inv s := by
  induction f generalizing st lines with
  | zero =>
    intro s hs
    have hs2 : s ∈ [st] := hs
    rw [show s = st by simpa using hs2]
    exact hI
  | succ f ih =>
    cases lines with
    | nil =>
      intro s hs
      have hs2 : s ∈ [st] := hs
      rw [show s = st by simpa using hs2]
      exact hI
    | cons raw rest =>
      obtain ⟨ps, st2, rest2, heq, _, _, _, hinv⟩ := mdLoopF_step st raw rest
      rw [heq f]
      intro s hs
      have hs2 : s ∈ st :: (mdLoopF f st2 rest2).trace := hs
      rcases List.mem_cons.mp hs2 with h | h
      · rw [h]; exact hI
      · exact ih st2 rest2 (hinv hI) s h

theorem mdLoopF_fuel_aux : ∀ (n : Nat) (st : MDState) (lines : List (List Char)),
    lines.length ≤ n → ∀ f g : Nat, lines.length ≤ f → lines.length ≤ g →
    mdLoopF f st lines = mdLoopF g st lines := by
  intro n
  induction n with
  | zero =>
    intro st lines hlen f g _ _
    rw [List.length_eq_zero.mp (Nat.le_zero.mp hlen)]
    cases f <;> cases g <;> rfl
  | succ n ih =>
    intro st lines hlen f g hf hg
    cases lines with
    | nil => cases f <;> cases g <;> rfl
    | cons raw rest =>
      simp only [List.length_cons] at hlen hf hg
      cases f with
      | zero => omega
      | succ f' =>
        cases g with
        | zero => omega
        | succ g' =>
          obtain ⟨ps, st2, rest2, heq, hlen2, _, _, _⟩ := mdLoopF_step st raw rest
          rw [heq f', heq g']
          have hr : rest2.length ≤ n := by omega
          rw [ih st2 rest2 hr f' g' (by omega) (by omega)]

/-- Fuel beyond the number of lines is irrelevant: the scan consumes at least
one line per iteration, so it terminates within as many iterations as there
are lines. -/
theorem mdLoopF_fuel (st : MDState) (lines : List (List Char)) (f : Nat)
    (hf : lines.length ≤ f) : mdLoopF f st lines = mdLoopF lines.length st lines :=
  mdLoopF_fuel_aux lines.length st lines le_rfl f lines.length hf le_rfl

theorem mdLoopF_final_cleared (f : Nat) (st : MDState) (lines : List (List Char)) :
    ∃ cd : Bool, (mdLoopF f st lines).final = ⟨false, false, false, false, cd⟩ := by
  induction f generalizing st lines with
  | zero => exact ⟨st.in_code, rfl⟩
  | succ f ih =>
    cases lines with
    | nil => exact ⟨st.in_code, rfl⟩
    | cons raw rest =>
      obtain ⟨ps, st2, rest2, heq, _, _, _, _⟩ := mdLoopF_step st raw rest
      rw [heq f]
      exact ih st2 rest2

/-! ### The open-minus-close difference of the full output -/

theorem kindOpen_last : ∀ k : Kind, ∀ lc, (openL k).getLast? = some lc → isWs lc = false := by
  intro k; cases k <;> decide

theorem kindClose_last : ∀ k : Kind, ∀ lc, (closeL k).getLast? = some lc → isWs lc = false := by
  intro k; cases k <;> decide

theorem diffK_strip (k : Kind) (l : List Char) : diffK k (stripWs l) = diffK k l := by
  rw [diffK, diffK, countOcc_strip (kindOpen_head k) (kindOpen_last k),
    countOcc_strip (kindClose_head k) (kindClose_last k)]

/-- The tag-balance difference of the whole output equals the pending count of
the state after the final close calls. -/
theorem diffK_mdts (md : List Char) (k : Kind) :
    diffK k (markdownToStorageL md) = pend k (mdRun md).final := by
  rw [markdownToStorageL, diffK_strip,
    diffK_joinNl (mdRun md).pieces
      (mdLoopF_safe (splitLines md).length initState (splitLines md)) k]
  have h := mdLoopF_diff (splitLines md).length initState (splitLines md) k
  have h0 : pend k initState = 0 := by cases k <;> rfl
  rw [show mdRun md = mdLoopF (splitLines md).length initState (splitLines md) from rfl,
    h, h0]
  ring

/-! ### Counting cell tags in a table-body-row piece -/

theorem td_notin_inline :
    ∀ t ∈ inlineToks, "<td>".data.isPrefixOf t = false ∧ t.isPrefixOf "<td>".data = false := by
  decide

theorem tdc_notin_inline :
    ∀ t ∈ inlineToks, "</td>".data.isPrefixOf t = false ∧
      t.isPrefixOf "</td>".data = false := by
  decide

theorem countOcc_rI_td (c : List Char) : countOcc "<td>".data (renderInline c) = 0 :=
  TokSeq.countOcc_zero (by decide) inlineToks_ok td_notin_inline (fun _ hc => hc.1)
    (renderInline_safe c)

theorem countOcc_rI_tdc (c : List Char) : countOcc "</td>".data (renderInline c) = 0 :=
  TokSeq.countOcc_zero (by decide) inlineToks_ok tdc_notin_inline (fun _ hc => hc.1)
    (renderInline_safe c)

theorem countOcc_td_flat (cells : List (List Char)) (x : List Char) :
    countOcc "<td>".data
      ((cells.map (fun c => "<td>".data ++ renderInline c ++ "</td>".data)).flatten ++ x)
      = cells.length + countOcc "<td>".data x := by
  induction cells with
  | nil => simp
  | cons c cs ih =>
    have e1 : ((c :: cs).map (fun c => "<td>".data ++ renderInline c ++ "</td>".data)).flatten
          ++ x
        = "<td>".data ++ (renderInline c ++ ("</td>".data
            ++ ((cs.map (fun c => "<td>".data ++ renderInline c ++ "</td>".data)).flatten
              ++ x))) := by
      simp only [List.map_cons, List.flatten_cons, List.append_assoc]
    rw [e1, countOcc_tok_append (by decide) (by decide) (by decide) (Or.inl rfl),
      if_pos rfl,
      TokSeq.countOcc_append (by decide) inlineToks_ok
        (fun t ht => Or.inr (td_notin_inline t ht)) (fun _ hc => hc.1) (renderInline_safe c),
      countOcc_rI_td,
      countOcc_tok_append (by decide) (by decide) (by decide) (Or.inr (by decide)),
      if_neg (by decide), ih]
    simp only [List.length_cons]
    omega

theorem countOcc_tdc_flat (cells : List (List Char)) (x : List Char) :
    countOcc "</td>".data
      ((cells.map (fun c => "<td>".data ++ renderInline c ++ "</td>".data)).flatten ++ x)
      = cells.length + countOcc "</td>".data x := by
  induction cells with
  | nil => simp
  | cons c cs ih =>
    have e1 : ((c :: cs).map (fun c => "<td>".data ++ renderInline c ++ "</td>".data)).flatten
          ++ x
        = "<td>".data ++ (renderInline c ++ ("</td>".data
            ++ ((cs.map (fun c => "<td>".data ++ renderInline c ++ "</td>".data)).flatten
              ++ x))) := by
      simp only [List.map_cons, List.flatten_cons, List.append_assoc]
    rw [e1, countOcc_tok_append (by decide) (by decide) (by decide) (Or.inr (by decide)),
      if_neg (by decide),
      TokSeq.countOcc_append (by decide) inlineToks_ok
        (fun t ht => Or.inr (tdc_notin_inline t ht)) (fun _ hc => hc.1) (renderInline_safe c),
      countOcc_rI_tdc,
      countOcc_tok_append (by decide) (by decide) (by decide) (Or.inl rfl),
      if_pos rfl, ih]
    simp only [List.length_cons]
    omega

theorem tableRowPiece_td (r : List Char) :
    countOcc "<td>".data (tableRowPiece r) = (parseCellsL r).length := by
  rw [tableRowPiece]
  have e1 : "<tr>".data
        ++ ((parseCellsL r).map (fun c => "<td>".data ++ renderInline c ++ "</td>".data)).flatten
        ++ "</tr>".data
      = "<tr>".data
        ++ (((parseCellsL r).map
            (fun c => "<td>".data ++ renderInline c ++ "</td>".data)).flatten
          ++ "</tr>".data) := by
    simp only [List.append_assoc]
  rw [e1, countOcc_tok_append (by decide) (by decide) (by decide) (Or.inr (by decide)),
    if_neg (by decide), countOcc_td_flat,
    show countOcc "<td>".data "</tr>".data = 0 from by decide]
  omega

theorem tableRowPiece_tdc (r : List Char) :
    countOcc "</td>".data (tableRowPiece r) = (parseCellsL r).length := by
  rw [tableRowPiece]
  have e1 : "<tr>".data
        ++ ((parseCellsL r).map (fun c => "<td>".data ++ renderInline c ++ "</td>".data)).flatten
        ++ "</tr>".data
      = "<tr>".data
        ++ (((parseCellsL r).map
            (fun c => "<td>".data ++ renderInline c ++ "</td>".data)).flatten
          ++ "</tr>".data) := by
    simp only [List.append_assoc]
  rw [e1, countOcc_tok_append (by decide) (by decide) (by decide) (Or.inr (by decide)),
    if_neg (by decide), countOcc_tdc_flat,
    show countOcc "</td>".data "</tr>".data = 0 from by decide]
  omega

/-- Cell parsing as the specification words it: strip the line, strip one
leading pipe and one trailing pipe, split on pipes, strip each field. -/
def stripOnePipe (l : List Char) : List Char :=
  let a := if l.head? = some '|' then l.tail else l
  if a.getLast? = some '|' then a.dropLast else a

/-- The specification's cell-parsing function, for comparison with the
source's parseCellsL. -/
def parseCellsSpec (s : List Char) : List (List Char) :=
  (splitOnChar '|' (stripOnePipe (stripWs s))).map stripWs

example : markdown_to_storage "```\n**not bold**\n```"
    = "<pre><code>\n**not bold**\n</code></pre>" := by decide

example : countOcc "**not bold**".data
    (markdownToStorageL "```\n**not bold**\n```".data) = 1 := by decide

example : markdown_to_storage "# a|b" = "<h1>a|b</h1>" := by decide

example : markdown_to_storage "a|b\nc" = "<p>\na|b \nc \n</p>" := by decide

example : markdown_to_storage "- a\n1. b"
    = "<ul>\n<li>a</li>\n</ul>\n<ol>\n<li>b</li>\n</ol>" := by decide

example : markdown_to_storage "# Title\n\n- one\n- two\n\n**bold**"
    = "<h1>Title</h1>\n<ul>\n<li>one</li>\n<li>two</li>\n</ul>\n<p>\n<strong>bold</strong> \n</p>"
  := by decide

example : countOcc "<td>".data (markdownToStorageL "h1|h2\n|---|---|\n||a|b||".data) = 2 := by
  decide

example : (parseCellsSpec "||a|b||".data).length = 4 := by decide

example : (parseCellsL "||a|b||".data).length = 2 := by decide

example : countOcc "<pre>".data (markdownToStorageL "```".data) = 1 := by decide

example : countOcc "</pre>".data (markdownToStorageL "```".data) = 0 := by decide

example : ((mdRun "> q\nx".data).trace.any (fun s => s.in_quote && s.in_para)) = true := by
  decide

example : countOcc "<td>".data (markdownToStorageL "a|b\n|---|---|\n|x|".data) = 1 := by decide

example : countOcc "<th>".data (markdownToStorageL "a|b\n|---|---|\n|x|".data) = 2 := by decide

example : (mdRun "hello".data).final.in_code = false := by decide

/-! ## The claims -/

/-- Claim C1, counterexample: the output of markdown_to_storage is not always
tag-balanced.  On the single-line input of three backticks the scanner opens a
code block that is never closed: the output holds one opening pre tag and no
closing one. -/
theorem C1_cex :
    countOcc "<pre>".data (markdownToStorageL "```".data) = 1 ∧
    countOcc "</pre>".data (markdownToStorageL "```".data) = 0 :=
  ⟨by decide, by decide⟩

/-- Claim C1, amended: whenever the scan does not end inside an unterminated
fenced code block, the output of markdown_to_storage is structurally balanced:
for every block tag kind the number of opening tags emitted equals the number
of closing tags emitted. -/
theorem C1_amended (md : List Char) (h : (mdRun md).final.in_code = false) (k : Kind) :
    countOcc (openL k) (markdownToStorageL md)
      = countOcc (closeL k) (markdownToStorageL md) := by
  have h1 := diffK_mdts md k
  have h2 : pend k (mdRun md).final = 0 := by
    obtain ⟨cd, hcd⟩ := mdLoopF_final_cleared (splitLines md).length initState (splitLines md)
    have hcd2 : (mdRun md).final = ⟨false, false, false, false, cd⟩ := hcd
    rw [hcd2] at h ⊢
    have hf : cd = false := h
    subst hf
    cases k <;> rfl
  rw [h2, diffK] at h1
  omega

/-- Claim C1, witness: a concrete input satisfying the hypothesis of the
amended claim, with balanced paragraph tags. -/
theorem C1_amended_witness :
    (mdRun "hello".data).final.in_code = false ∧
    countOcc (openL Kind.p) (markdownToStorageL "hello".data)
      = countOcc (closeL Kind.p) (markdownToStorageL "hello".data) :=
  ⟨by decide, C1_amended "hello".data (by decide) Kind.p⟩

/-- Claim C2, counterexample: the claimed flag exclusivity fails.  On a
blockquote line followed by a plain line the scan reaches a state with both
the blockquote flag and the paragraph flag set while both list flags are off,
which is not the allowed list-paragraph combination. -/
theorem C2_cex :
    ((mdRun "> q\nx".data).trace.any
      (fun s => s.in_quote && s.in_para && !s.in_ul && !s.in_ol)) = true := by
  decide

/-- Claim C2, amended: the invariant the line scan actually maintains at every
step: code mode excludes all other flags, the two list flags are mutually
exclusive, and the blockquote flag excludes both list flags but may coexist
with the paragraph flag. -/
theorem C2_amended (md : List Char) : ∀ s ∈ (mdRun md).trace, Inv s :=
  mdLoopF_inv (splitLines md).length initState (splitLines md) (by decide)

/-- Claim C2, witness: the amended invariant at the quote-and-paragraph state
reached by a concrete run. -/
theorem C2_amended_witness : Inv ⟨false, false, true, true, false⟩ :=
  C2_amended "> q\nx".data ⟨false, false, true, true, false⟩ (by decide)

/-- Claim C3: inside a fenced code block every line that is not the closing
fence is emitted HTML-escaped only, with no block or inline substitution and
no state change; the escaping touches only the three metacharacters; and on
the concrete example the code block keeps the literal star markers. -/
theorem C3 :
    (∀ (st : MDState) (raw : List Char) (rest : List (List Char)) (f : Nat),
      st.in_code = true → rstripWs (rstripNl raw) ≠ "```".data →
      mdLoopF (f + 1) st (raw :: rest) = stepCons st [escapeHtml raw] (mdLoopF f st rest)) ∧
    escapeHtml "&<>**_`".data = "&amp;&lt;&gt;**_`".data ∧
    markdown_to_storage "```\n**not bold**\n```" = "<pre><code>\n**not bold**\n</code></pre>" ∧
    countOcc "**not bold**".data (markdownToStorageL "```\n**not bold**\n```".data) = 1 := by
  refine ⟨?_, by decide, by decide, by decide⟩
  intro st raw rest f hcode hne
  have c1 : ¬((!st.in_code && isFenceStart (rstripWs (rstripNl raw))) = true) := by
    rw [hcode]
    simp
  simp only [mdLoopF]
  rw [if_neg c1, if_pos hcode, if_neg hne]

/-- Claim C3, witness: the in-code step applied to a concrete line and
state. -/
theorem C3_witness :
    mdLoopF 1 ⟨false, false, false, false, true⟩ ["x*".data]
      = stepCons ⟨false, false, false, false, true⟩ [escapeHtml "x*".data]
          (mdLoopF 0 ⟨false, false, false, false, true⟩ []) :=
  C3.1 ⟨false, false, false, false, true⟩ "x*".data [] 0 rfl (by decide)

/-- Claim C4: HTML escaping happens before span substitution.  The escaped
text holds no angle bracket at all; the inline renderer is the composition of
the escape with the five span passes in the fixed source order; and in the
rendered line every angle bracket lies inside one of the deliberately emitted
span tags, so a literal bracket of the source is never read as a tag. -/
theorem C4 (raw : List Char) :
    (∀ c ∈ escapeHtml raw, c ≠ '<' ∧ c ≠ '>') ∧
    renderInline raw = subPass matchEmUnd (subPass matchEmStar (subPass matchStrongUnd
      (subPass matchStrongStar (subPass matchCode (subPass matchLink (escapeHtml raw)))))) ∧
    InlineSafe (renderInline raw) :=
  ⟨escapeHtml_no_angle raw, rfl, renderInline_safe raw⟩

/-- Claim C4, witness: instantiated on a line with a literal angle bracket. -/
theorem C4_witness :
    ('&' ≠ '<' ∧ '&' ≠ '>') ∧ InlineSafe (renderInline "a<b".data) :=
  ⟨(C4 "a<b".data).1 '&' (by decide), (C4 "a<b".data).2.2⟩

/-- Claim C5, counterexample: a pipe-containing line with no separator row
following does not fall through to the paragraph path: a hash-prefixed pipe
line becomes a heading, with no paragraph and no table tags emitted. -/
theorem C5_cex :
    markdown_to_storage "# a|b" = "<h1>a|b</h1>" ∧
    countOcc "<p>".data (markdownToStorageL "# a|b".data) = 0 ∧
    countOcc "<table>".data (markdownToStorageL "# a|b".data) = 0 :=
  ⟨by decide, by decide, by decide⟩

/-- Claim C5, amended: with no separator row following, a pipe-containing
line is not a table header; it is classified by the remaining rules in source
order, and only when it also fails the fence, blank, horizontal-rule, heading,
blockquote and list patterns does it reach the plain-paragraph branch. -/
theorem C5_amended (st : MDState) (raw : List Char) (rest : List (List Char)) (f : Nat)
    (hcode : st.in_code = false)
    (hfence : isFenceStart (rstripWs (rstripNl raw)) = false)
    (hblank : isBlankLine (rstripWs (rstripNl raw)) = false)
    (htab : tableCond (rstripWs (rstripNl raw)) rest = false)
    (hhr : isHrLine (rstripWs (rstripNl raw)) = false)
    (hhm : headMatch (rstripWs (rstripNl raw)) = none)
    (hq : ¬((rstripWs (rstripNl raw)).head? = some '>'))
    (hul : ulMatch (rstripWs (rstripNl raw)) = none)
    (hol : olMatch (rstripWs (rstripNl raw)) = none) :
    mdLoopF (f + 1) st (raw :: rest)
      = stepCons st
          (closeQuoteP st
            ++ plainPieces { st with in_quote := false } (rstripWs (rstripNl raw)))
          (mdLoopF f (plainState { st with in_quote := false }) rest) := by
  have c1 : ¬((!st.in_code && isFenceStart (rstripWs (rstripNl raw))) = true) := by
    rw [hfence]
    simp
  have c2 : ¬(st.in_code = true) := by simp [hcode]
  have c3 : ¬(isBlankLine (rstripWs (rstripNl raw)) = true) := by simp [hblank]
  have c4 : ¬(tableCond (rstripWs (rstripNl raw)) rest = true) := by simp [htab]
  have c5 : ¬(isHrLine (rstripWs (rstripNl raw)) = true) := by simp [hhr]
  simp only [mdLoopF]
  rw [if_neg c1, if_neg c2, if_neg c3, if_neg c4, if_neg c5, hhm, if_neg hq, hul, hol]

/-- Claim C5, witness: the fall-through applied to a concrete pipe line with
no following separator row, which renders as paragraph text. -/
theorem C5_amended_witness :
    mdLoopF 1 initState ["a|b".data]
      = stepCons initState
          (closeQuoteP initState
            ++ plainPieces { initState with in_quote := false }
                (rstripWs (rstripNl "a|b".data)))
          (mdLoopF 0 (plainState { initState with in_quote := false }) []) :=
  C5_amended initState "a|b".data [] 0 rfl (by decide) (by decide) (by decide) (by decide)
    (by decide) (by decide) (by decide) (by decide)

/-- Claim C6: the renderer is total and permissive: the scan needs no more
fuel than the number of input lines, so it terminates within one iteration per
line; and from any state every line is consumed by some branch of the
classification chain, leaving a suffix of the remaining lines. -/
theorem C6 :
    (∀ (st : MDState) (lines : List (List Char)) (f : Nat), lines.length ≤ f →
      mdLoopF f st lines = mdLoopF lines.length st lines) ∧
    (∀ (st : MDState) (raw : List Char) (rest : List (List Char)),
      ∃ (ps : List (List Char)) (st2 : MDState) (rest2 : List (List Char)),
        (∀ f : Nat, mdLoopF (f + 1) st (raw :: rest) = stepCons st ps (mdLoopF f st2 rest2))
          ∧ rest2.length ≤ rest.length) := by
  refine ⟨fun st lines f hf => mdLoopF_fuel st lines f hf, fun st raw rest => ?_⟩
  obtain ⟨ps, st2, rest2, heq, hlen, _, _, _⟩ := mdLoopF_step st raw rest
  exact ⟨ps, st2, rest2, heq, hlen⟩

/-- Claim C6, witness: extra fuel is irrelevant on a concrete one-line run. -/
theorem C6_witness :
    mdLoopF 5 initState ["hi".data] = mdLoopF 1 initState ["hi".data] :=
  C6.1 initState ["hi".data] 5 (by decide)

/-- Claim C7: when a list item of the other type arrives, the open list is
closed and the other list opened before the item is emitted: with the
unordered flag set an ordered item yields the unordered closing tag, the
ordered opening tag, then the item, and symmetrically with the flags
exchanged; on a concrete two-line input the two items land in separate
lists. -/
theorem C7 (st1 : MDState) (txt : List Char) :
    (st1.in_ul = true → st1.in_ol = false → st1.in_para = false →
      olPieces st1 txt
          = ["</ul>".data, "<ol>".data, "<li>".data ++ renderInline txt ++ "</li>".data] ∧
        (olState st1).in_ul = false ∧ (olState st1).in_ol = true) ∧
    (st1.in_ol = true → st1.in_ul = false → st1.in_para = false →
      ulPieces st1 txt
          = ["</ol>".data, "<ul>".data, "<li>".data ++ renderInline txt ++ "</li>".data] ∧
        (ulState st1).in_ol = false ∧ (ulState st1).in_ul = true) ∧
    markdown_to_storage "- a\n1. b"
      = "<ul>\n<li>a</li>\n</ul>\n<ol>\n<li>b</li>\n</ol>" := by
  refine ⟨?_, ?_, by decide⟩
  · intro h1 h2 h3
    rcases st1 with ⟨u, o, pa, q, cd⟩
    have h1x : u = true := h1
    have h2x : o = false := h2
    have h3x : pa = false := h3
    subst h1x; subst h2x; subst h3x
    exact ⟨rfl, rfl, rfl⟩
  · intro h1 h2 h3
    rcases st1 with ⟨u, o, pa, q, cd⟩
    have h1x : o = true := h1
    have h2x : u = false := h2
    have h3x : pa = false := h3
    subst h1x; subst h2x; subst h3x
    exact ⟨rfl, rfl, rfl⟩

/-- Claim C7, witness: the switch applied in both directions at concrete
states. -/
theorem C7_witness :
    olPieces ⟨true, false, false, false, false⟩ "b".data
        = ["</ul>".data, "<ol>".data,
            "<li>".data ++ renderInline "b".data ++ "</li>".data] ∧
    ulPieces ⟨false, true, false, false, false⟩ "b".data
        = ["</ol>".data, "<ul>".data,
            "<li>".data ++ renderInline "b".data ++ "</li>".data] :=
  ⟨((C7 ⟨true, false, false, false, false⟩ "b".data).1 rfl rfl rfl).1,
    ((C7 ⟨false, true, false, false, false⟩ "b".data).2.1 rfl rfl rfl).1⟩

/-- Claim C8: the end-to-end example: a level-one heading around the title,
then an unordered list with exactly two items, then a paragraph with exactly
one strong pair, in that order. -/
theorem C8 :
    markdown_to_storage "# Title\n\n- one\n- two\n\n**bold**"
      = "<h1>Title</h1>\n<ul>\n<li>one</li>\n<li>two</li>\n</ul>\n<p>\n<strong>bold</strong> \n</p>"
      ∧
    countOcc "<h1>".data (markdownToStorageL "# Title\n\n- one\n- two\n\n**bold**".data) = 1 ∧
    countOcc "<li>".data (markdownToStorageL "# Title\n\n- one\n- two\n\n**bold**".data) = 2 ∧
    countOcc "<strong>".data (markdownToStorageL "# Title\n\n- one\n- two\n\n**bold**".data)
      = 1 :=
  ⟨by decide, by decide, by decide, by decide⟩

/-- Claim C9: a blockquote line opens both the blockquote and a paragraph; a
following plain line closes only the blockquote and appends its text to the
still-open paragraph, so the closing paragraph tag comes after the closing
blockquote tag in the output. -/
theorem C9 (st : MDState) (hq : st.in_quote = true) (hp : st.in_para = true) :
    closeQuoteP st = ["</blockquote>".data] ∧
    (∀ line, plainPieces { st with in_quote := false } line
        = [renderInline line ++ " ".data]) ∧
    (plainState { st with in_quote := false }).in_para = true ∧
    (∀ st0 : MDState, (quoteState st0).in_quote = true ∧ (quoteState st0).in_para = true) ∧
    markdown_to_storage "> q\nx" = "<blockquote>\n<p>\nq \n</blockquote>\nx \n</p>" := by
  rcases st with ⟨u, o, pa, q, cd⟩
  have hqx : q = true := hq
  have hpx : pa = true := hp
  subst hqx; subst hpx
  refine ⟨rfl, fun _ => rfl, rfl, ?_, by decide⟩
  intro st0
  rcases st0 with ⟨u0, o0, pa0, q0, cd0⟩
  cases q0 <;> exact ⟨rfl, rfl⟩

/-- Claim C9, witness: the quote-then-plain behaviour at the concrete
quote-and-paragraph state, with the full concrete output. -/
theorem C9_witness :
    closeQuoteP ⟨false, false, true, true, false⟩ = ["</blockquote>".data] ∧
    markdown_to_storage "> q\nx" = "<blockquote>\n<p>\nq \n</blockquote>\nx \n</p>" :=
  ⟨(C9 ⟨false, false, true, true, false⟩ rfl rfl).1,
    (C9 ⟨false, false, true, true, false⟩ rfl rfl).2.2.2.2⟩

/-- Claim C10, counterexample: parse_cells strips all leading and trailing
pipes, not one of each: a body row wrapped in doubled pipes yields two cells
in the model of the source and in the rendered table, where the one-pipe
reading of the claim yields four fields. -/
theorem C10_cex :
    (parseCellsL "||a|b||".data).length = 2 ∧
    (parseCellsSpec "||a|b||".data).length = 4 ∧
    countOcc "<td>".data (markdownToStorageL "h1|h2\n|---|---|\n||a|b||".data) = 2 :=
  ⟨by decide, by decide, by decide⟩

/-- Claim C10, amended: table widths are indeed not normalized: every body
row piece carries exactly as many opening and closing cell tags as
parse_cells yields for that row after stripping all leading and trailing
pipes, independent of the header width; concretely a one-cell body row under
a two-column header keeps exactly one cell. -/
theorem C10_amended (r : List Char) :
    countOcc "<td>".data (tableRowPiece r) = (parseCellsL r).length ∧
    countOcc "</td>".data (tableRowPiece r) = (parseCellsL r).length ∧
    countOcc "<td>".data (markdownToStorageL "a|b\n|---|---|\n|x|".data) = 1 ∧
    countOcc "<th>".data (markdownToStorageL "a|b\n|---|---|\n|x|".data) = 2 :=
  ⟨tableRowPiece_td r, tableRowPiece_tdc r, by decide, by decide⟩

end MdStorage
